import Mathlib

/-!
Shallow embedding of `src/lapjv.rs` — the Jonker–Volgenant shortest augmenting
path solver for the dense Linear Assignment Problem.

Modelling conventions:
* Matrix values (Rust generic `T : Float`, instantiated at `f64`) are modelled
  by exact rationals `ℚ`; `T::max_value()` and `T::epsilon()` become the
  explicit `f64` constants `maxValue` and `epsilonValue`.  All arithmetic the
  solver performs is subtraction/addition/comparison, which is exact on `ℚ`.
* `usize::MAX`, used by the code as the "unassigned" sentinel, is the constant
  `UNASSIGNED = 2^64 - 1`.
* Mutable `Vec`s become `List`s threaded through state-passing functions;
  in-place writes become `List.set` and reads `List.getD`.
* The cancellation flag (`AtomicBool` read via `check_cancelled`) is a `Bool`
  parameter: the model covers the single-threaded executions in which the flag
  has a fixed value throughout the solve.
* Rust `while` loops without a structural decreasing measure get fuel large
  enough for every well-formed execution; fuel exhaustion — and array reads
  that would panic in Rust — yield `none`.  Thus the model of `solve` returns
  `Option (Except ErrorKind _)`: `some (.ok _)` for `Ok`, `some (.error _)`
  for `Err`, and `none` for a panicking / diverging execution.
-/

namespace LapJV

/-- `usize::MAX`, the sentinel the code stores in assignment slots. -/
def UNASSIGNED : ℕ := 2 ^ 64 - 1

/-- `f64::MAX = (2^53 - 1) · 2^971`, the model of `T::max_value()`, written
as an explicit numeral so that the kernel evaluates it without unfolding
exponentiation (`maxValue_eq` below states the closed form). -/
def maxValue : ℚ := 179769313486231570814527423731704356798070567525844996598917476803157260780028538760589558632766878171540458953514382464234321326889464182768467546703537516986049910576551282076245490090389328944075868508455133942304583236903222948165808559332123348274797826204144723168738177180919299881250404026184124858368

/-- `f64::EPSILON = 2^(-52)`, the model of `T::epsilon()`. -/
def epsilonValue : ℚ := 1 / 4503599627370496

/-- `enum ErrorKind { Msg(&'static str), Cancelled }` from `lapjv.rs`. -/
inductive ErrorKind where
  | msg : String → ErrorKind
  | cancelled : ErrorKind
deriving DecidableEq, Repr

end LapJV

deriving instance DecidableEq for Except

namespace LapJV

/-- `ndarray::Array2<T>`: a shape `(nrows, ncols)` with row-major data. -/
structure Matrix where
  nrows : ℕ
  ncols : ℕ
  data : List ℚ
deriving DecidableEq, Repr

/-- `costs[(i, j)]` — row-major indexing into the 2-D array. -/
def Matrix.entry (m : Matrix) (i j : ℕ) : ℚ := m.data.getD (i * m.ncols + j) 0

/-- `self.costs.row(i)` as a list of length `ncols`. -/
def Matrix.rowList (m : Matrix) (i : ℕ) : List ℚ :=
  (List.range m.ncols).map (m.entry i)

/-- Convenience constructor used by concrete test matrices: a square matrix
from a list of rows. -/
def Matrix.ofRows (rows : List (List ℚ)) : Matrix :=
  { nrows := rows.length, ncols := (rows.headD []).length, data := rows.flatten }

/-- A well-formed `ndarray::Array2` stores exactly `nrows * ncols` elements
(`ndarray` guarantees rectangularity by construction). -/
def Matrix.WF (m : Matrix) : Prop := m.data.length = m.nrows * m.ncols

/-- The mutable solver state of `struct LapJV` (the cost matrix, being
immutable, is passed separately). -/
structure St where
  dim : ℕ
  freeRows : List ℕ
  v : List ℚ
  inCol : List ℕ
  inRow : List ℕ
deriving DecidableEq, Repr

/-- `LapJV::new`: `dim = costs.dim().0`, empty `free_rows`, `v`, `in_col`,
and `in_row = vec![0; dim]`. -/
def initState (m : Matrix) : St :=
  { dim := m.nrows, freeRows := [], v := [], inCol := [],
    inRow := List.replicate m.nrows 0 }

/-- `LapJV::reduced_cost(i, j) = costs[(i, j)] - v[j]`. -/
def reduced_cost (m : Matrix) (v : List ℚ) (i j : ℕ) : ℚ :=
  m.entry i j - v.getD j 0

/-- The fold inside the first loop of `ccrrt_dense`: for column `j`, the
minimizing row index and minimal value (`indexed_iter().skip(1).fold(...)`,
strict `<`, so the first minimizing row wins). -/
def colMin (m : Matrix) (j : ℕ) : ℕ × ℚ :=
  ((List.range m.nrows).drop 1).foldl
    (fun acc i => if m.entry i j < acc.2 then (i, m.entry i j) else acc)
    (0, m.entry 0 j)

/-- Body of the first loop of `ccrrt_dense`: push the minimizing row onto
`in_col` and the column minimum onto `v`. -/
def ccrrtColStep (m : Matrix) (acc : List ℕ × List ℚ) (j : ℕ) :
    List ℕ × List ℚ :=
  let mi := colMin m j
  (acc.1 ++ [mi.1], acc.2 ++ [mi.2])

/-- Body of the `for j in (0..dim).rev()` loop of `ccrrt_dense`, acting on
`(unique, in_row_not_set, in_col, in_row)`: first-claim-wins row claiming. -/
def ccrrtClaimStep (acc : List Bool × List Bool × List ℕ × List ℕ) (j : ℕ) :
    List Bool × List Bool × List ℕ × List ℕ :=
  let unique := acc.1
  let notSet := acc.2.1
  let inCol := acc.2.2.1
  let inRow := acc.2.2.2
  let i := inCol.getD j 0
  if notSet.getD i true then
    (unique, notSet.set i false, inCol, inRow.set i j)
  else
    (unique.set i false, notSet, inCol.set j UNASSIGNED, inRow)

/-- Body of the `for i in 0..dim` loop of `ccrrt_dense`: collect free rows
and perform the reduction transfer on uniquely claimed rows. -/
def ccrrtTransferStep (m : Matrix) (dim : ℕ) (notSet unique : List Bool)
    (acc : St) (i : ℕ) : St :=
  if notSet.getD i true then
    { acc with freeRows := acc.freeRows ++ [i] }
  else if unique.getD i true then
    let j := acc.inRow.getD i 0
    let minv := (List.range dim).foldl
      (fun mv j2 =>
        if j2 = j then mv
        else if reduced_cost m acc.v i j2 < mv then reduced_cost m acc.v i j2
        else mv)
      maxValue
    { acc with v := acc.v.set j (acc.v.getD j 0 - minv) }
  else acc

/-- `LapJV::ccrrt_dense` — column reduction and reduction transfer. -/
def ccrrt_dense (m : Matrix) (st : St) : St :=
  let dim := st.dim
  -- `for row in self.costs.lanes(Axis(0))`: one lane per column.
  let step1 := (List.range m.ncols).foldl (ccrrtColStep m) (st.inCol, st.v)
  -- `for j in (0..dim).rev()`.
  let step2 := ((List.range dim).reverse).foldl ccrrtClaimStep
    (List.replicate dim true, List.replicate dim true, step1.1, st.inRow)
  -- `for i in 0..dim`.
  (List.range dim).foldl (ccrrtTransferStep m dim step2.2.1 step2.1)
    { st with v := step1.2, inCol := step2.2.2.1, inRow := step2.2.2.2 }

/-- The body of the `for j in 1..local_cost.dim()` loop of
`find_umins_plain`, acting on the running `(umin, usubmin, j1, j2)`. -/
def uminsStep (localCost v : List ℚ) (acc : ℚ × ℚ × ℕ × Option ℕ) (j : ℕ) :
    ℚ × ℚ × ℕ × Option ℕ :=
  let umin := acc.1
  let usubmin := acc.2.1
  let j1 := acc.2.2.1
  let h := localCost.getD j 0 - v.getD j 0
  if h < usubmin then
    if umin ≤ h then (umin, h, j1, some j)
    else (h, umin, j, some j1)
  else acc

/-- `find_umins_plain`: minimum and second minimum reduced cost of a row,
returning `(umin, usubmin, j1, j2)`. -/
def find_umins_plain (localCost : List ℚ) (v : List ℚ) : ℚ × ℚ × ℕ × Option ℕ :=
  ((List.range localCost.length).drop 1).foldl (uminsStep localCost v)
    (localCost.getD 0 0 - v.getD 0 0, maxValue, 0, none)

/-- One pass of the `while current < num_free_rows` loop of `carr_dense`,
with fuel (the loop's counter `current` can step backwards, but the guard
`rr_cnt < current * dim` bounds the excursions; the fuel supplied by
`carr_dense` below always suffices).  State carried: the in-place `free_rows`
buffer, `v`, `in_col`, `in_row` and the counters `current`, `new_free_rows`,
`rr_cnt`. -/
def carrLoop (m : Matrix) (dim numFree : ℕ) :
    ℕ → List ℕ → List ℚ → List ℕ → List ℕ → ℕ → ℕ → ℕ →
    Option (List ℕ × List ℚ × List ℕ × List ℕ × ℕ)
  | 0, _, _, _, _, _, _, _ => none
  | fuel + 1, freeRows, v, inCol, inRow, current, newFree, rrCnt =>
    if current < numFree then
      let rrCnt := rrCnt + 1
      let free_i := freeRows.getD current 0
      let current := current + 1
      let r := find_umins_plain (m.rowList free_i) v
      let v1 := r.1
      let v2 := r.2.1
      let j1 := r.2.2.1
      let j2 := r.2.2.2
      let i0 := inCol.getD j1 0
      let v1new := v.getD j1 0 - (v2 - v1)
      let v1lowers : Bool := decide (v1new < v.getD j1 0)
      if rrCnt < current * dim then
        -- the three-way head of the first branch may update `v`, or swap the
        -- rôles of `j1`/`j2` (re-reading `i0`)
        let vj1i0 :
            List ℚ × ℕ × ℕ :=
          if v1lowers then (v.set j1 v1new, j1, i0)
          else if i0 ≠ UNASSIGNED then
            match j2 with
            | some jj => (v, jj, inCol.getD jj 0)
            | none => (v, j1, i0)
          else (v, j1, i0)
        let v := vj1i0.1
        let j1 := vj1i0.2.1
        let i0 := vj1i0.2.2
        if i0 ≠ UNASSIGNED then
          if v1lowers then
            let current := current - 1
            let freeRows := freeRows.set current i0
            carrLoop m dim numFree fuel freeRows v (inCol.set j1 free_i)
              (inRow.set free_i j1) current newFree rrCnt
          else
            let freeRows := freeRows.set newFree i0
            carrLoop m dim numFree fuel freeRows v (inCol.set j1 free_i)
              (inRow.set free_i j1) current (newFree + 1) rrCnt
        else
          carrLoop m dim numFree fuel freeRows v (inCol.set j1 free_i)
            (inRow.set free_i j1) current newFree rrCnt
      else
        if i0 ≠ UNASSIGNED then
          let freeRows := freeRows.set newFree i0
          carrLoop m dim numFree fuel freeRows v (inCol.set j1 free_i)
            (inRow.set free_i j1) current (newFree + 1) rrCnt
        else
          carrLoop m dim numFree fuel freeRows v (inCol.set j1 free_i)
            (inRow.set free_i j1) current newFree rrCnt
    else
      some (freeRows, v, inCol, inRow, newFree)

/-- `LapJV::carr_dense` — augmenting row reduction.  Ends with
`free_rows.truncate(new_free_rows)`. -/
def carr_dense (m : Matrix) (st : St) : Option St :=
  let numFree := st.freeRows.length
  match carrLoop m st.dim numFree (numFree * (st.dim + 2) + 1)
      st.freeRows st.v st.inCol st.inRow 0 0 0 with
  | none => none
  | some (freeRows, v, inCol, inRow, newFree) =>
    some { st with freeRows := freeRows.take newFree, v := v,
                   inCol := inCol, inRow := inRow }

/-- Body of the `for k in hi..dim` loop of `find_dense`. -/
def findDenseStep (d : List ℚ) (lo : ℕ) (acc : ℕ × ℚ × List ℕ) (k : ℕ) :
    ℕ × ℚ × List ℕ :=
  let hi := acc.1
  let mind := acc.2.1
  let collist := acc.2.2
  let j := collist.getD k 0
  let h := d.getD j 0
  if h ≤ mind then
    let hm : ℕ × ℚ := if h < mind then (lo, h) else (hi, mind)
    let hi := hm.1
    let collist := (collist.set k (collist.getD hi 0)).set hi j
    (hi + 1, hm.2, collist)
  else acc

/-- `find_dense`: grow the group `collist[lo..hi)` of columns tied for the
minimum tentative distance; returns the new `hi` and the permuted `collist`.
(The Rust `for k in hi..dim` evaluates its range once, at `hi = lo + 1`.) -/
def find_dense (dim lo : ℕ) (d : List ℚ) (collist : List ℕ) : ℕ × List ℕ :=
  let r := (List.range' (lo + 1) (dim - (lo + 1))).foldl (findDenseStep d lo)
    (lo + 1, d.getD (collist.getD lo 0) 0, collist)
  (r.1, r.2.2)

/-- The inner `for k in hi..collist.len()` loop of `scan_dense` (range frozen
at entry), relaxing distances through row `i`; an early `return Some(j)`
aborts the whole scan.  Returns either the found column (with the mutated
buffers) or the updated `(hi, d, collist, pred)`. -/
def scanInner (m : Matrix) (v : List ℚ) (inCol : List ℕ) (i : ℕ) (mind h : ℚ) :
    List ℕ → ℕ → List ℚ → List ℕ → List ℕ →
    (Option ℕ) × ℕ × List ℚ × List ℕ × List ℕ
  | [], hi, d, collist, pred => (none, hi, d, collist, pred)
  | k :: ks, hi, d, collist, pred =>
    let j := collist.getD k 0
    let cred := reduced_cost m v i j - h
    if cred < d.getD j 0 then
      let d := d.set j cred
      let pred := pred.set j i
      if |cred - mind| < epsilonValue then
        if inCol.getD j 0 = UNASSIGNED then (some j, hi, d, collist, pred)
        else
          let collist := (collist.set k (collist.getD hi 0)).set hi j
          scanInner m v inCol i mind h ks (hi + 1) d collist pred
      else scanInner m v inCol i mind h ks hi d collist pred
    else scanInner m v inCol i mind h ks hi d collist pred

/-- The outer `while lo != hi` loop of `scan_dense`, with fuel.  Returns
`(found, lo, hi, d, collist, pred)`; on a find, `lo`/`hi` keep the caller's
values (the Rust code only writes `*plo`/`*phi` back when nothing was found),
but the buffer mutations persist. -/
def scanLoop (m : Matrix) (v : List ℚ) (inCol : List ℕ) :
    ℕ → ℕ → ℕ → List ℚ → List ℕ → List ℕ →
    (Option ℕ) × ℕ × ℕ × List ℚ × List ℕ × List ℕ
  | 0, lo, hi, d, collist, pred => (none, lo, hi, d, collist, pred)
  | fuel + 1, lo, hi, d, collist, pred =>
    if lo = hi then (none, lo, hi, d, collist, pred)
    else
      let j := collist.getD lo 0
      let lo' := lo + 1
      let i := inCol.getD j 0
      let mind := d.getD j 0
      let h := reduced_cost m v i j - mind
      let r := scanInner m v inCol i mind h
        (List.range' hi (collist.length - hi)) hi d collist pred
      match r.1 with
      | some found => (some found, lo, hi, r.2.2.1, r.2.2.2.1, r.2.2.2.2)
      | none => scanLoop m v inCol fuel lo' r.2.1 r.2.2.1 r.2.2.2.1 r.2.2.2.2

/-- `LapJV::scan_dense` with explicit state. -/
def scan_dense (m : Matrix) (v : List ℚ) (inCol : List ℕ)
    (lo hi : ℕ) (d : List ℚ) (collist pred : List ℕ) :
    (Option ℕ) × ℕ × ℕ × List ℚ × List ℕ × List ℕ :=
  scanLoop m v inCol (collist.length + 1) lo hi d collist pred

/-- The `for &j in collist.iter().take(hi).skip(lo)` scan of
`find_path_dense`: the last unassigned column wins. -/
def lastUnassigned (inCol : List ℕ) (l : List ℕ) : Option ℕ :=
  l.foldl (fun a j => if inCol.getD j 0 = UNASSIGNED then some j else a) none

/-- The `while final_j.is_none()` loop of `find_path_dense`, with fuel (each
round either finds the terminal column or advances `lo`, so `dim + 1` rounds
suffice; a round entered with `lo = hi = dim` would index `d[collist[dim]]`
out of bounds in Rust, modelled as `none`).  Returns
`(final_j, lo, n_ready, d, collist, pred)`. -/
def pathLoop (m : Matrix) (v : List ℚ) (inCol : List ℕ) (dim : ℕ) :
    ℕ → ℕ → ℕ → ℕ → List ℚ → List ℕ → List ℕ →
    Option (ℕ × ℕ × ℕ × List ℚ × List ℕ × List ℕ)
  | 0, _, _, _, _, _, _ => none
  | fuel + 1, lo, hi, nReady, d, collist, pred =>
    if lo = hi then
      if dim ≤ lo then none  -- Rust panics: `d[collist[lo]]` with `lo ≥ dim`
      else
        let nReady := lo
        let fd := find_dense dim lo d collist
        let hi := fd.1
        let collist := fd.2
        -- `for &j in collist.iter().take(hi).skip(lo)`: the last unassigned
        -- column in the group wins
        let fj := lastUnassigned inCol ((collist.drop lo).take (hi - lo))
        match fj with
        | some j => some (j, lo, nReady, d, collist, pred)
        | none =>
          let r := scan_dense m v inCol lo hi d collist pred
          match r.1 with
          | some j => some (j, lo, nReady, r.2.2.2.1, r.2.2.2.2.1, r.2.2.2.2.2)
          | none => pathLoop m v inCol dim fuel r.2.1 r.2.2.1 nReady
              r.2.2.2.1 r.2.2.2.2.1 r.2.2.2.2.2
    else
      let r := scan_dense m v inCol lo hi d collist pred
      match r.1 with
      | some j => some (j, lo, nReady, r.2.2.2.1, r.2.2.2.2.1, r.2.2.2.2.2)
      | none => pathLoop m v inCol dim fuel r.2.1 r.2.2.1 nReady
          r.2.2.2.1 r.2.2.2.2.1 r.2.2.2.2.2

/-- `LapJV::find_path_dense`: one Dijkstra round rooted at `start_i`.
Returns the closest free column together with the updated `v` and `pred`. -/
def find_path_dense (m : Matrix) (v : List ℚ) (inCol : List ℕ)
    (startI dim : ℕ) (pred : List ℕ) : Option (ℕ × List ℚ × List ℕ) :=
  let collist := List.range dim
  let d := (List.range dim).map (reduced_cost m v startI)
  let pred := (List.range dim).foldl (fun p i => p.set i startI) pred
  match pathLoop m v inCol dim (dim + 1) 0 0 0 d collist pred with
  | none => none
  | some (finalJ, lo, nReady, d, collist, pred) =>
    let mind := d.getD (collist.getD lo 0) 0
    let v := (collist.take nReady).foldl
      (fun vv j => vv.set j (vv.getD j 0 + (d.getD j 0 - mind))) v
    some (finalJ, v, pred)

/-- The `while i != freerow` predecessor walk of `ca_dense`, applying the
augmenting path by swapping assignment pointers; after `dim + 1` swaps it
aborts with the non-convergence error (`k > dim` check).  The structural
fuel is only a recursion device: since `k` grows by one per iteration and
the walk stops once `k` exceeds `dim`, the fuel `dim + 2` supplied by
`ca_dense` can never run out (`ca_walk_ne_none` below). -/
def ca_walk (dim freerow : ℕ) (pred : List ℕ) :
    ℕ → ℕ → ℕ → ℕ → List ℕ → List ℕ →
    Option (Except ErrorKind (List ℕ × List ℕ))
  | 0, _, _, _, _, _ => none
  | fuel + 1, i, j, k, inCol, inRow =>
    if i = freerow then some (.ok (inCol, inRow))
    else
      let i' := pred.getD j 0
      let inCol' := inCol.set j i'
      let j' := inRow.getD i' 0
      let inRow' := inRow.set i' j
      let k' := k + 1
      if dim < k' then some (.error (.msg "Error: ca_dense will not finish"))
      else ca_walk dim freerow pred fuel i' j' k' inCol' inRow'

/-- The `for freerow in free_rows` loop of `ca_dense`, threading `pred`,
`v`, `in_col`, `in_row`. -/
def caLoop (m : Matrix) (flag : Bool) (dim : ℕ) :
    List ℕ → List ℕ → List ℚ → List ℕ → List ℕ →
    Option (Except ErrorKind (List ℚ × List ℕ × List ℕ))
  | [], _, v, inCol, inRow => some (.ok (v, inCol, inRow))
  | freerow :: rest, pred, v, inCol, inRow =>
    if flag then some (.error .cancelled)
    else
      match find_path_dense m v inCol freerow dim pred with
      | none => none
      | some (j, v', pred') =>
        match ca_walk dim freerow pred' (dim + 2) UNASSIGNED j 0 inCol inRow with
        | none => none
        | some (.error e) => some (.error e)
        | some (.ok (inCol', inRow')) => caLoop m flag dim rest pred' v' inCol' inRow'

/-- `LapJV::ca_dense` — augmentation phase: `pred = vec![0; dim]`, the free
row list is drained, and each free row is resolved by a shortest-path round
followed by the predecessor walk. -/
def ca_dense (m : Matrix) (flag : Bool) (st : St) :
    Option (Except ErrorKind St) :=
  match caLoop m flag st.dim st.freeRows (List.replicate st.dim 0)
      st.v st.inCol st.inRow with
  | none => none
  | some (.error e) => some (.error e)
  | some (.ok (v, inCol, inRow)) =>
    some (.ok { st with freeRows := [], v := v, inCol := inCol, inRow := inRow })

/-- The `while !free_rows.is_empty() && i < 2` loop of `solve`, invoking
`check_cancelled` then `carr_dense` each pass.  The first argument counts the
passes still allowed (`2 - i` for the Rust counter `i`); `solve` starts it
at `2`. -/
def solveLoop (m : Matrix) (flag : Bool) : ℕ → St → Option (Except ErrorKind St)
  | 0, st => some (.ok st)
  | rem + 1, st =>
    if st.freeRows ≠ [] then
      if flag then some (.error .cancelled)
      else
        match carr_dense m st with
        | none => none
        | some st' => solveLoop m flag rem st'
    else some (.ok st)

/-- `LapJV::solve`: square check, column reduction, at most two augmenting
row reduction passes, then augmentation; returns `(in_row, in_col)` — that
is, `(row_to_col, col_to_row)`. -/
def solve (m : Matrix) (flag : Bool) :
    Option (Except ErrorKind (List ℕ × List ℕ)) :=
  if m.nrows ≠ m.ncols then
    some (.error (.msg "Input error: matrix is not square"))
  else
    match solveLoop m flag 2 (ccrrt_dense m (initState m)) with
    | none => none
    | some (.error e) => some (.error e)
    | some (.ok st2) =>
      if st2.freeRows ≠ [] then
        match ca_dense m flag st2 with
        | none => none
        | some (.error e) => some (.error e)
        | some (.ok st3) => some (.ok (st3.inRow, st3.inCol))
      else some (.ok (st2.inRow, st2.inCol))

/-- `lapjv(costs)`: construct a fresh solver (cancellation flag initially
clear) and solve. -/
def lapjv (m : Matrix) : Option (Except ErrorKind (List ℕ × List ℕ)) :=
  solve m false

/-- The free function `cost`: total cost of an assignment given by a result
row (`fold` from `T::zero()`). -/
def cost (m : Matrix) (row : List ℕ) : ℚ :=
  (List.range row.length).foldl (fun acc i => acc + m.entry i (row.getD i 0)) 0

/-- Instrumentation twin of `ca_walk`: the number of loop iterations (each
iteration performs exactly one pair of assignment-pointer writes, i.e. one
swap step of the augmenting path). -/
def ca_walkSteps (dim freerow : ℕ) (pred : List ℕ) :
    ℕ → ℕ → ℕ → ℕ → List ℕ → List ℕ → ℕ
  | 0, _, _, _, _, _ => 0
  | fuel + 1, i, j, k, inCol, inRow =>
    if i = freerow then 0
    else
      let i' := pred.getD j 0
      let inCol' := inCol.set j i'
      let j' := inRow.getD i' 0
      let inRow' := inRow.set i' j
      let k' := k + 1
      if dim < k' then 1
      else 1 + ca_walkSteps dim freerow pred fuel i' j' k' inCol' inRow'

/-- Instrumentation twin of `solveLoop`: how many times `carr_dense` (the
augmenting-row-reduction pass) is invoked. -/
def carrPasses (m : Matrix) (flag : Bool) : ℕ → St → ℕ
  | 0, _ => 0
  | rem + 1, st =>
    if st.freeRows ≠ [] then
      if flag then 0
      else
        match carr_dense m st with
        | none => 1
        | some st' => 1 + carrPasses m flag rem st'
    else 0

/-- A 4×4 matrix of tiny dyadic costs (multiples of `2^-54`, all exactly
representable in `f64`, with every intermediate value the solver computes
also exact in `f64`):

```
(1/2^54) * [2 0 0 0]
           [2 1 0 0]
           [2 1 0 0]
           [2 2 0 0]
```

Because every cost difference is below `f64::EPSILON`, the
`(cred_ij - mind).abs() < T::epsilon()` comparison in `scan_dense` treats
strictly worse columns as ties, and the solver returns a suboptimal
assignment. -/
def mSubEps : Matrix :=
  { nrows := 4, ncols := 4,
    data := ([2, 0, 0, 0, 2, 1, 0, 0, 2, 1, 0, 0, 2, 2, 0, 0] : List ℕ).map
      (fun k => (k : ℚ) / 18014398509481984) }

end LapJV


namespace LapJV

/-- The matching invariant tying `free_rows`, `in_col` and `in_row` together
(for a square dimension `n`): assigned columns point to in-range, non-free
rows whose back-pointer agrees, and non-free rows are consistently assigned;
the free-row worklist holds distinct in-range rows. -/
structure MatchInv (n : ℕ) (freeRows inCol inRow : List ℕ) : Prop where
  colLen : inCol.length = n
  rowLen : inRow.length = n
  nodup : freeRows.Nodup
  freeLt : ∀ i ∈ freeRows, i < n
  colOk : ∀ j, j < n → inCol.getD j 0 ≠ UNASSIGNED →
    inCol.getD j 0 < n ∧ inRow.getD (inCol.getD j 0) 0 = j ∧
    inCol.getD j 0 ∉ freeRows
  rowOk : ∀ i, i < n → i ∉ freeRows →
    inRow.getD i 0 < n ∧ inCol.getD (inRow.getD i 0) 0 = i

/-- Shortest-path tree structure recorded by `find_path_dense`'s `pred`
array: from column `j`, `pred[j]` is either the root free row, or the row
assigned (in the pre-augmentation `in_col`) to a column settled at a
position `q` below the bound, itself chained. -/
def ChainOK (inCol0 pred collist : List ℕ) (freerow : ℕ) : ℕ → ℕ → Prop
  | p, j =>
    pred.getD j 0 = freerow ∨
    ∃ q, ∃ _ : q < p, pred.getD j 0 = inCol0.getD (collist.getD q 0) 0 ∧
      inCol0.getD (collist.getD q 0) 0 ≠ UNASSIGNED ∧
      ChainOK inCol0 pred collist freerow q (collist.getD q 0)
termination_by p _ => p

/-- An explicit alternating chain: from column `j`, following `pred` leads
to the row of column `c₁`, from `c₁` to the row of `c₂`, …, and the last
column's predecessor is the root free row. -/
def Chain (inCol0 pred : List ℕ) (freerow : ℕ) : List ℕ → ℕ → Prop
  | [], j => pred.getD j 0 = freerow
  | c :: cs, j =>
    pred.getD j 0 = inCol0.getD c 0 ∧ inCol0.getD c 0 ≠ UNASSIGNED ∧
    Chain inCol0 pred freerow cs c

end LapJV



namespace LapJV

/-- Loop invariant of the descending claim loop of `ccrrt_dense`, for state
`z = (unique, in_row_not_set, in_col, in_row)` once the columns of `[t, n)`
have been processed: the untouched prefix keeps the column-minima `inCol0`,
every processed column is voided or points at a claimed row with matching
back-pointer, and every claimed row names its surviving claimant. -/
def CcrrtClaimInv (n : ℕ) (inCol0 : List ℕ) (t : ℕ)
    (z : List Bool × List Bool × List ℕ × List ℕ) : Prop :=
  z.2.1.length = n ∧ z.2.2.1.length = n ∧ z.2.2.2.length = n ∧
  (∀ j, j < t → z.2.2.1.getD j 0 = inCol0.getD j 0) ∧
  (∀ j, t ≤ j → j < n → z.2.2.1.getD j 0 = UNASSIGNED ∨
    (z.2.2.1.getD j 0 = inCol0.getD j 0 ∧
     z.2.2.2.getD (inCol0.getD j 0) 0 = j ∧
     z.2.1.getD (inCol0.getD j 0) true = false)) ∧
  (∀ i, i < n → z.2.1.getD i true = false →
    ∃ j, t ≤ j ∧ j < n ∧ z.2.2.1.getD j 0 = i ∧ z.2.2.2.getD i 0 = j)

end LapJV


/-! ## Helper lemmas -/

namespace LapJV

theorem getD_set_self {α} (l : List α) (i : ℕ) (x d : α) (h : i < l.length) :
    (l.set i x).getD i d = x := by
  simp [List.getD_eq_getElem?_getD, List.getElem?_set, h]

theorem getD_set_ne {α} (l : List α) (i j : ℕ) (x d : α) (h : i ≠ j) :
    (l.set i x).getD j d = l.getD j d := by
  simp [List.getD_eq_getElem?_getD, List.getElem?_set, h]

theorem getD_of_length_le {α} (l : List α) (i : ℕ) (d : α) (h : l.length ≤ i) :
    l.getD i d = d := by
  simp [List.getD_eq_getElem?_getD, List.getElem?_eq_none h]

theorem drop_eq_getD_cons {α} (l : List α) (i : ℕ) (d : α) (h : i < l.length) :
    l.drop i = l.getD i d :: l.drop (i + 1) := by
  rw [List.drop_eq_getElem_cons h]
  simp [List.getD_eq_getElem?_getD, List.getElem?_eq_getElem h]

theorem nodup_getD_ne (l : List ℕ) (h : l.Nodup) {p q : ℕ}
    (hp : p < l.length) (hq : q < l.length) (hne : p ≠ q) :
    l.getD p 0 ≠ l.getD q 0 := by
  simp only [List.getD_eq_getElem?_getD, List.getElem?_eq_getElem hp,
    List.getElem?_eq_getElem hq, Option.getD_some]
  intro hh
  exact hne (List.Nodup.getElem_inj_iff h |>.mp hh)

theorem take_set_of_le {α} (l : List α) (k j : ℕ) (x : α) (h : k ≤ j) :
    (l.set j x).take k = l.take k := by
  apply List.ext_getElem?
  intro i
  rw [List.getElem?_take, List.getElem?_take]
  by_cases hik : i < k
  · simp only [if_pos hik]
    rw [List.getElem?_set, if_neg (by omega)]
  · simp [if_neg hik]

theorem set_take_succ {α} (l : List α) (k : ℕ) (x : α) (h : k < l.length) :
    (l.set k x).take (k + 1) = l.take k ++ [x] := by
  apply List.ext_getElem?
  intro i
  rw [List.getElem?_take]
  by_cases hik : i < k + 1
  · simp only [if_pos hik]
    rw [List.getElem?_set]
    by_cases hk : k = i
    · subst hk
      rw [if_pos rfl, if_pos h, List.getElem?_append_right (by rw [List.length_take]; omega)]
      simp [List.length_take, Nat.min_eq_left (le_of_lt h)]
    · rw [if_neg hk, List.getElem?_append_left (by rw [List.length_take]; omega),
        List.getElem?_take, if_pos (by omega)]
  · rw [if_neg hik]
    symm
    apply List.getElem?_eq_none
    rw [List.length_append, List.length_take]
    simp
    omega

theorem drop_set_of_lt {α} (l : List α) (k j : ℕ) (x : α) (h : j < k) :
    (l.set j x).drop k = l.drop k := by
  apply List.ext_getElem?
  intro i
  rw [List.getElem?_drop, List.getElem?_drop]
  rw [List.getElem?_set, if_neg (by omega)]

theorem getD_mem (l : List ℕ) (p : ℕ) (h : p < l.length) : l.getD p 0 ∈ l := by
  rw [List.getD_eq_getElem?_getD, List.getElem?_eq_getElem h]
  exact List.getElem_mem h

end LapJV

namespace LapJV

theorem ca_walk_error_msg (dim freerow : ℕ) (pred : List ℕ) :
    ∀ fuel i j k inCol inRow e,
      ca_walk dim freerow pred fuel i j k inCol inRow = some (.error e) →
      e = .msg "Error: ca_dense will not finish" := by
  intro fuel
  induction fuel with
  | zero => intro i j k inCol inRow e h; simp [ca_walk] at h
  | succ n ih =>
    intro i j k inCol inRow e h
    rw [ca_walk] at h
    by_cases hif : i = freerow
    · simp [hif] at h
    · simp only [if_neg hif] at h
      by_cases hk : dim < k + 1
      · simp only [if_pos hk, Option.some.injEq] at h
        cases h.symm
        rfl
      · simp only [if_neg hk] at h
        exact ih _ _ _ _ _ _ h

theorem ca_walk_ne_none (dim freerow : ℕ) (pred : List ℕ) :
    ∀ fuel i j k inCol inRow, k ≤ dim + 1 → dim + 2 ≤ fuel + k →
      ca_walk dim freerow pred fuel i j k inCol inRow ≠ none := by
  intro fuel
  induction fuel with
  | zero => intro i j k inCol inRow hk hf; omega
  | succ n ih =>
    intro i j k inCol inRow hk hf
    rw [ca_walk]
    by_cases hif : i = freerow
    · simp [hif]
    · simp only [if_neg hif]
      by_cases hdk : dim < k + 1
      · simp [hdk]
      · simp only [if_neg hdk]
        exact ih _ _ _ _ _ (by omega) (by omega)

theorem caLoop_error (m : Matrix) (flag : Bool) (dim : ℕ) :
    ∀ fr pred v inCol inRow e,
      caLoop m flag dim fr pred v inCol inRow = some (.error e) →
      e = .cancelled ∨ e = .msg "Error: ca_dense will not finish" := by
  intro fr
  induction fr with
  | nil => intro pred v inCol inRow e h; simp [caLoop] at h
  | cons freerow rest ih =>
    intro pred v inCol inRow e h
    rw [caLoop] at h
    split at h
    · simp only [Option.some.injEq, Except.error.injEq] at h
      exact Or.inl h.symm
    · split at h
      · exact absurd h (by simp)
      · rename_i j v2 pred2 hfp
        split at h
        · exact absurd h (by simp)
        · rename_i e2 hw
          simp only [Option.some.injEq, Except.error.injEq] at h
          subst h
          exact Or.inr (ca_walk_error_msg dim freerow pred2 _ _ _ _ _ _ _ hw)
        · rename_i q hw
          exact ih _ _ _ _ _ h

theorem ca_dense_error (m : Matrix) (flag : Bool) (st : St) (e : ErrorKind)
    (h : ca_dense m flag st = some (.error e)) :
    e = .cancelled ∨ e = .msg "Error: ca_dense will not finish" := by
  rw [ca_dense] at h
  split at h
  · exact absurd h (by simp)
  · rename_i e2 hc
    simp only [Option.some.injEq, Except.error.injEq] at h
    subst h
    exact caLoop_error m flag st.dim _ _ _ _ _ _ hc
  · exact absurd h (by simp)

theorem solveLoop_error (m : Matrix) (flag : Bool) :
    ∀ rem st e, solveLoop m flag rem st = some (.error e) → e = .cancelled := by
  intro rem
  induction rem with
  | zero => intro st e h; simp [solveLoop] at h
  | succ n ih =>
    intro st e h
    rw [solveLoop] at h
    split at h
    · split at h
      · simp only [Option.some.injEq, Except.error.injEq] at h
        exact h.symm
      · split at h
        · exact absurd h (by simp)
        · exact ih _ _ h
    · simp only [Option.some.injEq] at h
      cases h

end LapJV

namespace LapJV

theorem solveLoop_succ (m : Matrix) (flag : Bool) (rem : ℕ) (st : St) :
    solveLoop m flag (rem + 1) st =
      (if st.freeRows ≠ [] then
        if flag then some (.error .cancelled)
        else
          match carr_dense m st with
          | none => none
          | some st2 => solveLoop m flag rem st2
      else some (.ok st)) := by
  rw [solveLoop]

end LapJV


/-! ## Claim theorems -/

namespace LapJV

/-- C4: for every non-square input matrix (row count ≠ column count) and any
cancellation-flag value, `solve()` fails with the dimension-mismatch error —
the very first thing `solve` does is the shape test, so the error is produced
before any mutable solver state is touched and the caller sees no partial or
default assignment, only this error value. -/
theorem claim_C4_dimension_mismatch (m : Matrix) (flag : Bool)
    (h : m.nrows ≠ m.ncols) :
    solve m flag = some (.error (.msg "Input error: matrix is not square")) := by
  rw [solve, if_pos h]

theorem claim_C4_dimension_mismatch_witness :
    ({ nrows := 2, ncols := 3, data := [1, 2, 3, 4, 5, 6] } : Matrix).nrows ≠
      ({ nrows := 2, ncols := 3, data := [1, 2, 3, 4, 5, 6] } : Matrix).ncols ∧
    solve { nrows := 2, ncols := 3, data := [1, 2, 3, 4, 5, 6] } false =
      some (.error (.msg "Input error: matrix is not square")) :=
  ⟨by decide, claim_C4_dimension_mismatch _ false (by decide)⟩

/-- C9: the 0×0 matrix solves successfully to two empty arrays for either
flag value; column reduction leaves an empty free-row list, so neither the
augmenting-row-reduction loop nor the augmentation phase runs a loop body,
and no error is raised. -/
theorem claim_C9_empty_matrix :
    (∀ flag, solve { nrows := 0, ncols := 0, data := [] } flag =
      some (.ok ([], []))) ∧
    (ccrrt_dense { nrows := 0, ncols := 0, data := [] }
      (initState { nrows := 0, ncols := 0, data := [] })).freeRows = [] := by
  constructor
  · intro flag
    cases flag <;> decide
  · decide

unseal Rat.add Rat.sub Rat.mul Rat.inv in
/-- C8: the two worked examples from the spec: `[[1,2],[2,1]]` solves to
`row_to_col = [0,1]` with total cost `2`, and `[[2,1],[1,2]]` solves to
`row_to_col = [1,0]` with total cost `2`. -/
theorem claim_C8_examples :
    lapjv (Matrix.ofRows [[1, 2], [2, 1]]) = some (.ok ([0, 1], [0, 1])) ∧
    cost (Matrix.ofRows [[1, 2], [2, 1]]) [0, 1] = 2 ∧
    lapjv (Matrix.ofRows [[2, 1], [1, 2]]) = some (.ok ([1, 0], [1, 0])) ∧
    cost (Matrix.ofRows [[2, 1], [1, 2]]) [1, 0] = 2 := by
  refine ⟨by decide, by decide, by decide, by decide⟩

unseal Rat.add Rat.sub Rat.mul Rat.inv in
/-- C3 counterexample: with the cancellation flag set before `solve()` on the
square matrix `[[1,2],[2,1]]`, `solve()` does **not** return the `Cancelled`
outcome — column reduction already assigns every row, the free-row list is
empty, the flag is never polled, and the solve succeeds. -/
theorem claim_C3_counterexample :
    solve (Matrix.ofRows [[1, 2], [2, 1]]) true = some (.ok ([0, 1], [0, 1])) ∧
    solve (Matrix.ofRows [[1, 2], [2, 1]]) true ≠
      some (.error ErrorKind.cancelled) := by
  refine ⟨by decide, by decide⟩

/-- C3 amended: if the cancellation flag is set before `solve()` is invoked
on a square matrix, the column-reduction phase still executes; after it, if
at least one row is left unassigned, `solve()` returns the `Cancelled`
outcome before any augmenting-row-reduction or augmentation work, and if
column reduction assigned every row, `solve()` ignores the flag and succeeds
with that assignment. -/
theorem claim_C3_amended (m : Matrix) (h : m.nrows = m.ncols) :
    ((ccrrt_dense m (initState m)).freeRows ≠ [] →
      solve m true = some (.error ErrorKind.cancelled)) ∧
    ((ccrrt_dense m (initState m)).freeRows = [] →
      solve m true = some (.ok ((ccrrt_dense m (initState m)).inRow,
                               (ccrrt_dense m (initState m)).inCol))) := by
  constructor
  · intro hfr
    rw [solve, if_neg (by omega)]
    rw [solveLoop_succ, if_pos hfr, if_pos rfl]
  · intro hfr
    rw [solve, if_neg (by omega)]
    rw [solveLoop_succ, if_neg (by simp [hfr])]
    simp [hfr]

unseal Rat.add Rat.sub Rat.mul Rat.inv in
theorem claim_C3_amended_witness :
    (Matrix.ofRows [[1, 1], [1, 1]]).nrows = (Matrix.ofRows [[1, 1], [1, 1]]).ncols ∧
    solve (Matrix.ofRows [[1, 1], [1, 1]]) true = some (.error ErrorKind.cancelled) :=
  ⟨by decide,
   (claim_C3_amended (Matrix.ofRows [[1, 1], [1, 1]]) (by decide)).1 (by decide)⟩

set_option maxRecDepth 40000 in
unseal Rat.add Rat.sub Rat.mul Rat.inv in
/-- C2 failing input: on the 4×4 matrix `mSubEps`, whose costs are tiny
(sub-epsilon) but exactly representable `f64` dyadics, `solve()` succeeds and
returns `row_to_col = [3,1,2,0]` of total cost `3·2^-54`, yet the permutation
`[1,2,3,0]` costs only `2·2^-54`: the returned assignment is not minimal,
contradicting the claimed optimality property. -/
theorem claim_C2_suboptimal_on_subepsilon_costs :
    solve mSubEps false = some (.ok ([3, 1, 2, 0], [3, 1, 2, 0])) ∧
    List.Perm [1, 2, 3, 0] (List.range 4) ∧
    cost mSubEps [1, 2, 3, 0] = 2 / 18014398509481984 ∧
    cost mSubEps [3, 1, 2, 0] = 3 / 18014398509481984 ∧
    cost mSubEps [1, 2, 3, 0] < cost mSubEps [3, 1, 2, 0] := by
  refine ⟨by decide, by decide, by decide, by decide, by decide⟩

/-- C10: every error `solve()` can return is either the `Cancelled` variant
or the `Msg` variant carrying one of the two fixed strings
`"Input error: matrix is not square"` (dimension mismatch) or
`"Error: ca_dense will not finish"` (non-convergence); the `ErrorKind` type
has no other constructor, so the two `Msg` failures are distinguishable only
by their text. -/
theorem claim_C10_error_taxonomy (m : Matrix) (flag : Bool) (e : ErrorKind)
    (h : solve m flag = some (.error e)) :
    e = ErrorKind.cancelled ∨
    e = ErrorKind.msg "Input error: matrix is not square" ∨
    e = ErrorKind.msg "Error: ca_dense will not finish" := by
  rw [solve] at h
  split at h
  · simp only [Option.some.injEq, Except.error.injEq] at h
    exact Or.inr (Or.inl h.symm)
  · split at h
    · exact absurd h (by simp)
    · rename_i e2 hsl
      simp only [Option.some.injEq, Except.error.injEq] at h
      subst h
      exact Or.inl (solveLoop_error m flag _ _ _ hsl)
    · rename_i st2 hsl
      split at h
      · split at h
        · exact absurd h (by simp)
        · rename_i e2 hca
          simp only [Option.some.injEq, Except.error.injEq] at h
          subst h
          rcases ca_dense_error m flag st2 _ hca with h1 | h1
          · exact Or.inl h1
          · exact Or.inr (Or.inr h1)
        · exact absurd h (by simp)
      · exact absurd h (by simp)

theorem claim_C10_error_taxonomy_witness :
    ErrorKind.msg "Input error: matrix is not square" = ErrorKind.cancelled ∨
    ErrorKind.msg "Input error: matrix is not square" =
      ErrorKind.msg "Input error: matrix is not square" ∨
    ErrorKind.msg "Input error: matrix is not square" =
      ErrorKind.msg "Error: ca_dense will not finish" :=
  claim_C10_error_taxonomy { nrows := 1, ncols := 2, data := [0, 0] } false _
    (by decide)

end LapJV

namespace LapJV

theorem ca_walk_ok_steps (dim freerow : ℕ) (pred : List ℕ) :
    ∀ fuel i j k inCol inRow r,
      ca_walk dim freerow pred fuel i j k inCol inRow = some (.ok r) →
      k + ca_walkSteps dim freerow pred fuel i j k inCol inRow ≤ dim ∨
      ca_walkSteps dim freerow pred fuel i j k inCol inRow = 0 := by
  intro fuel
  induction fuel with
  | zero => intro i j k inCol inRow r h; simp [ca_walk] at h
  | succ n ih =>
    intro i j k inCol inRow r h
    rw [ca_walk] at h
    rw [ca_walkSteps]
    by_cases hif : i = freerow
    · simp [hif]
    · simp only [if_neg hif] at h ⊢
      by_cases hdk : dim < k + 1
      · simp only [if_pos hdk, Option.some.injEq] at h
        cases h
      · simp only [if_neg hdk] at h ⊢
        rcases ih _ _ _ _ _ _ h with h2 | h2
        · left; omega
        · left; omega

/-- C5: the predecessor-chain walk of `ca_dense` (started as the code does,
with `i = usize::MAX` and `k = 0`) is capped by the matrix dimension: when it
completes an augmenting path it has performed at most `dim` assignment
swaps, the only error it can produce is the non-convergence message
`"Error: ca_dense will not finish"` (raised as soon as the swap count would
exceed `dim`), and it never runs out of the `dim + 2` fuel budget — i.e. it
always stops rather than looping further. -/
theorem claim_C5_walk_cap (dim freerow : ℕ) (pred : List ℕ) (j : ℕ)
    (inCol inRow : List ℕ) :
    (∀ r, ca_walk dim freerow pred (dim + 2) UNASSIGNED j 0 inCol inRow =
        some (.ok r) →
      ca_walkSteps dim freerow pred (dim + 2) UNASSIGNED j 0 inCol inRow ≤ dim) ∧
    (∀ e, ca_walk dim freerow pred (dim + 2) UNASSIGNED j 0 inCol inRow =
        some (.error e) →
      e = .msg "Error: ca_dense will not finish") ∧
    ca_walk dim freerow pred (dim + 2) UNASSIGNED j 0 inCol inRow ≠ none := by
  refine ⟨?_, ?_, ?_⟩
  · intro r h
    rcases ca_walk_ok_steps dim freerow pred _ _ _ _ _ _ _ h with h2 | h2
    · omega
    · omega
  · intro e h
    exact ca_walk_error_msg dim freerow pred _ _ _ _ _ _ _ h
  · exact ca_walk_ne_none dim freerow pred _ _ _ _ _ _ (by omega) (by omega)

theorem claim_C5_walk_cap_witness :
    ca_walkSteps 1 0 [0] 3 UNASSIGNED 0 0 [UNASSIGNED] [5] ≤ 1 :=
  (claim_C5_walk_cap 1 0 [0] 0 [UNASSIGNED] [5]).1 ([0], [0]) (by decide)

theorem carrPasses_le (m : Matrix) (flag : Bool) :
    ∀ rem st, carrPasses m flag rem st ≤ rem := by
  intro rem
  induction rem with
  | zero => intro st; simp [carrPasses]
  | succ n ih =>
    intro st
    rw [carrPasses]
    split
    · split
      · omega
      · split
        · omega
        · rename_i st2 hc
          have := ih st2
          omega
    · omega

theorem solveLoop_ok_passes (m : Matrix) :
    ∀ rem st st', solveLoop m false rem st = some (.ok st') →
      carrPasses m false rem st < rem → st'.freeRows = [] := by
  intro rem
  induction rem with
  | zero => intro st st' h hp; omega
  | succ n ih =>
    intro st st' h hp
    rw [solveLoop] at h
    rw [carrPasses] at hp
    split at h
    · rename_i hfr
      rw [if_pos hfr] at hp
      simp only [Bool.false_eq_true, if_neg (by simp : ¬False)] at h
      rw [if_neg (by simp : ¬(false = true))] at hp
      cases hc : carr_dense m st with
      | none => simp only [hc] at h; cases h
      | some st2 =>
        simp only [hc] at h hp
        exact ih st2 st' h (by omega)
    · rename_i hfr
      rw [if_neg hfr] at hp
      simp only [Option.some.injEq, Except.ok.injEq] at h
      subst h
      simpa using hfr

/-- C6: with the cancellation flag clear, `solve()` runs the
augmenting-row-reduction phase (`carr_dense`) at most twice on the state
produced by column reduction, and the only way fewer than two passes run is
that the free-row list is already empty when the loop re-checks it — in
which case the state the loop hands to the rest of `solve` has an empty
free-row list. -/
theorem claim_C6_two_pass_bound (m : Matrix) :
    carrPasses m false 2 (ccrrt_dense m (initState m)) ≤ 2 ∧
    (∀ st', solveLoop m false 2 (ccrrt_dense m (initState m)) = some (.ok st') →
      carrPasses m false 2 (ccrrt_dense m (initState m)) < 2 →
      st'.freeRows = []) := by
  exact ⟨carrPasses_le m false 2 _, fun st' h hp => solveLoop_ok_passes m 2 _ st' h hp⟩

unseal Rat.add Rat.sub Rat.mul Rat.inv in
theorem claim_C6_two_pass_bound_witness :
    (ccrrt_dense (Matrix.ofRows [[1, 2], [2, 1]])
        (initState (Matrix.ofRows [[1, 2], [2, 1]]))).freeRows = [] :=
  (claim_C6_two_pass_bound (Matrix.ofRows [[1, 2], [2, 1]])).2
    (ccrrt_dense (Matrix.ofRows [[1, 2], [2, 1]])
      (initState (Matrix.ofRows [[1, 2], [2, 1]])))
    (by decide) (by decide)

end LapJV

namespace LapJV

theorem range_drop_one (n : ℕ) (h : 1 ≤ n) :
    (List.range n).drop 1 = List.range' 1 (n - 1) := by
  obtain ⟨k, rfl⟩ : ∃ k, n = k + 1 := ⟨n - 1, by omega⟩
  rw [List.range_eq_range', List.range'_succ]
  simp

theorem uminsFold_inv (lc v : List ℚ)
    (hmax : ∀ j, j < lc.length → lc.getD j 0 - v.getD j 0 ≤ maxValue) :
    ∀ k, k + 1 ≤ lc.length →
    ∀ A, (List.range' 1 k).foldl (uminsStep lc v)
        (lc.getD 0 0 - v.getD 0 0, maxValue, 0, none) = A →
      ((∀ j, j < k + 1 → A.1 ≤ lc.getD j 0 - v.getD j 0) ∧
       (A.2.2.1 < k + 1 ∧ lc.getD A.2.2.1 0 - v.getD A.2.2.1 0 = A.1) ∧
       (∀ j, j < A.2.2.1 → A.1 < lc.getD j 0 - v.getD j 0) ∧
       A.1 ≤ A.2.1 ∧
       (∀ j, j < k + 1 → j ≠ A.2.2.1 → A.2.1 ≤ lc.getD j 0 - v.getD j 0) ∧
       ((∃ j, j < k + 1 ∧ j ≠ A.2.2.1 ∧ lc.getD j 0 - v.getD j 0 = A.2.1) ∨
        A.2.1 = maxValue)) := by
  intro k
  induction k with
  | zero =>
    intro hk A hA
    simp only [List.range'_zero, List.foldl_nil] at hA
    subst hA
    dsimp only
    refine ⟨?_, ⟨by omega, rfl⟩, ?_, hmax 0 (by omega), ?_, Or.inr rfl⟩
    · intro j hj
      interval_cases j
      exact le_refl _
    · intro j hj; omega
    · intro j hj hj0; omega
  | succ k ih =>
    intro hk A hA
    have hr : List.range' 1 (k + 1) = List.range' 1 k ++ [1 + k] := by
      simpa using @List.range'_concat 1 1 k
    rw [hr, List.foldl_append, List.foldl_cons, List.foldl_nil] at hA
    obtain ⟨a1, a2, a3, a4, a5, a6⟩ :=
      ih (by omega) ((List.range' 1 k).foldl (uminsStep lc v)
        (lc.getD 0 0 - v.getD 0 0, maxValue, 0, none)) rfl
    set B := (List.range' 1 k).foldl (uminsStep lc v)
        (lc.getD 0 0 - v.getD 0 0, maxValue, 0, none) with hB
    rw [uminsStep] at hA
    by_cases hc1 : lc.getD (1 + k) 0 - v.getD (1 + k) 0 < B.2.1
    · simp only [if_pos hc1] at hA
      by_cases hc2 : B.1 ≤ lc.getD (1 + k) 0 - v.getD (1 + k) 0
      · rw [if_pos hc2] at hA
        subst hA
        dsimp only
        refine ⟨?_, ⟨by omega, a2.2⟩, a3, hc2, ?_, ?_⟩
        · intro j hj
          rcases Nat.lt_or_ge j (k + 1) with hj2 | hj2
          · exact a1 j hj2
          · have : j = 1 + k := by omega
            subst this
            exact hc2
        · intro j hj hne
          rcases Nat.lt_or_ge j (k + 1) with hj2 | hj2
          · exact le_of_lt (lt_of_lt_of_le hc1 (a5 j hj2 hne))
          · have : j = 1 + k := by omega
            subst this
            exact le_refl _
        · exact Or.inl ⟨1 + k, by omega, by omega, rfl⟩
      · rw [if_neg hc2] at hA
        push_neg at hc2
        subst hA
        dsimp only
        refine ⟨?_, ⟨by omega, rfl⟩, ?_, le_of_lt hc2, ?_, ?_⟩
        · intro j hj
          rcases Nat.lt_or_ge j (k + 1) with hj2 | hj2
          · exact le_of_lt (lt_of_lt_of_le hc2 (a1 j hj2))
          · have : j = 1 + k := by omega
            subst this
            exact le_refl _
        · intro j hj
          have hj2 : j < k + 1 := by omega
          exact lt_of_lt_of_le hc2 (a1 j hj2)
        · intro j hj hne
          have hj2 : j < k + 1 := by omega
          exact a1 j hj2
        · exact Or.inl ⟨B.2.2.1, by omega, by omega, a2.2⟩
    · simp only [if_neg hc1] at hA
      push_neg at hc1
      subst hA
      refine ⟨?_, ⟨by omega, a2.2⟩, a3, a4, ?_, ?_⟩
      · intro j hj
        rcases Nat.lt_or_ge j (k + 1) with hj2 | hj2
        · exact a1 j hj2
        · have : j = 1 + k := by omega
          subst this
          exact le_trans a4 hc1
      · intro j hj hne
        rcases Nat.lt_or_ge j (k + 1) with hj2 | hj2
        · exact a5 j hj2 hne
        · have : j = 1 + k := by omega
          subst this
          exact hc1
      · rcases a6 with ⟨j, hj, hne, he⟩ | he
        · exact Or.inl ⟨j, by omega, hne, he⟩
        · exact Or.inr he

end LapJV

namespace LapJV

/-- C7: for a cost row of length `N ≥ 1` and dual vector `v` of length `N`
(whose reduced costs do not exceed the type's maximum value, as holds for
every finite `f64` row), `find_umins_plain` returns: the minimum reduced
cost `cost[j] − v[j]` over all columns; as its index the smallest column
attaining it (every smaller column is strictly larger, so on ties the
smaller index keeps the minimum); as second value the minimum reduced cost
over the remaining columns (it is a lower bound of every column other than
the returned index, and for `N ≥ 2` some other column attains it); and for
`N = 1` the second value is the type's maximum and its index is absent. -/
theorem claim_C7_find_umins (localCost v : List ℚ)
    (hn : 1 ≤ localCost.length) (hv : v.length = localCost.length)
    (hmax : ∀ j, j < localCost.length →
      localCost.getD j 0 - v.getD j 0 ≤ maxValue) :
    (∀ j, j < localCost.length →
      (find_umins_plain localCost v).1 ≤ localCost.getD j 0 - v.getD j 0) ∧
    ((find_umins_plain localCost v).2.2.1 < localCost.length ∧
      localCost.getD (find_umins_plain localCost v).2.2.1 0 -
        v.getD (find_umins_plain localCost v).2.2.1 0 =
        (find_umins_plain localCost v).1) ∧
    (∀ j, j < (find_umins_plain localCost v).2.2.1 →
      (find_umins_plain localCost v).1 < localCost.getD j 0 - v.getD j 0) ∧
    (∀ j, j < localCost.length → j ≠ (find_umins_plain localCost v).2.2.1 →
      (find_umins_plain localCost v).2.1 ≤ localCost.getD j 0 - v.getD j 0) ∧
    (2 ≤ localCost.length →
      ∃ j, j < localCost.length ∧ j ≠ (find_umins_plain localCost v).2.2.1 ∧
        localCost.getD j 0 - v.getD j 0 = (find_umins_plain localCost v).2.1) ∧
    (localCost.length = 1 →
      (find_umins_plain localCost v).2.1 = maxValue ∧
      (find_umins_plain localCost v).2.2.2 = none) := by
  have hfold : find_umins_plain localCost v =
      (List.range' 1 (localCost.length - 1)).foldl (uminsStep localCost v)
        (localCost.getD 0 0 - v.getD 0 0, maxValue, 0, none) := by
    rw [find_umins_plain, range_drop_one _ hn]
  have hk1 : (localCost.length - 1) + 1 ≤ localCost.length := by omega
  obtain ⟨a1, a2, a3, a4, a5, a6⟩ :=
    uminsFold_inv localCost v hmax (localCost.length - 1) hk1
      (find_umins_plain localCost v) hfold.symm
  have hlen : (localCost.length - 1) + 1 = localCost.length := by omega
  rw [hlen] at a1 a2 a5 a6
  refine ⟨a1, a2, a3, ?_, ?_, ?_⟩
  · intro j hj hne
    exact a5 j hj hne
  · intro h2
    rcases a6 with ⟨j, hj, hne, he⟩ | he
    · exact ⟨j, hj, hne, he⟩
    · -- the second minimum was never updated: every other column sits at maxValue
      have hj1 : (find_umins_plain localCost v).2.2.1 < localCost.length := a2.1
      by_cases h0 : (find_umins_plain localCost v).2.2.1 = 0
      · refine ⟨1, by omega, by omega, ?_⟩
        have := a5 1 (by omega) (by omega)
        have h1max := hmax 1 (by omega)
        rw [he] at this ⊢
        exact le_antisymm h1max this
      · refine ⟨0, by omega, fun hc => h0 hc.symm, ?_⟩
        have := a5 0 (by omega) (fun hc => h0 hc.symm)
        have h0max := hmax 0 (by omega)
        rw [he] at this ⊢
        exact le_antisymm h0max this
  · intro h1
    rw [find_umins_plain, h1]
    simp

unseal Rat.add Rat.sub Rat.mul Rat.inv in
theorem claim_C7_find_umins_witness :
    (find_umins_plain [5, 1, 1, 3] [0, 0, 0, 0]).1 ≤ 1 ∧
    (find_umins_plain [5, 1, 1, 3] [0, 0, 0, 0]).2.2.1 < 4 ∧
    (∃ j, j < 4 ∧ j ≠ (find_umins_plain [5, 1, 1, 3] [0, 0, 0, 0]).2.2.1 ∧
      ([5, 1, 1, 3] : List ℚ).getD j 0 - ([0, 0, 0, 0] : List ℚ).getD j 0 =
        (find_umins_plain [5, 1, 1, 3] [0, 0, 0, 0]).2.1) := by
  obtain ⟨a1, a2, a3, a4, a5, a6⟩ :=
    claim_C7_find_umins [5, 1, 1, 3] [0, 0, 0, 0] (by decide) (by decide)
      (by decide)
  refine ⟨?_, ?_, ?_⟩
  · have := a1 1 (by decide)
    simpa using this
  · simpa using a2.1
  · simpa using a5 (by decide)

end LapJV

namespace LapJV

/-- A length-`n` list with in-range, pairwise-distinct entries (as read
through `getD`) is a permutation of `range n`. -/
theorem perm_range_of_getD (l : List ℕ) (n : ℕ) (hlen : l.length = n)
    (hlt : ∀ p, p < n → l.getD p 0 < n)
    (hinj : ∀ p q, p < n → q < n → l.getD p 0 = l.getD q 0 → p = q) :
    l.Perm (List.range n) := by
  have hnd : l.Nodup := by
    rw [List.nodup_iff_injective_get]
    intro a b hab
    have ha : l.getD a.1 0 = l.get a := by
      rw [List.getD_eq_getElem?_getD, List.getElem?_eq_getElem a.2]
      simp [List.get_eq_getElem]
    have hb : l.getD b.1 0 = l.get b := by
      rw [List.getD_eq_getElem?_getD, List.getElem?_eq_getElem b.2]
      simp [List.get_eq_getElem]
    have : l.getD a.1 0 = l.getD b.1 0 := by rw [ha, hb, hab]
    have := hinj a.1 b.1 (by have := a.2; omega) (by have := b.2; omega) this
    exact Fin.ext this
  have hsub : l ⊆ List.range n := by
    intro x hx
    obtain ⟨p, hp, rfl⟩ := List.getElem_of_mem hx
    rw [List.mem_range]
    have : l.getD p 0 = l[p] := by
      rw [List.getD_eq_getElem?_getD, List.getElem?_eq_getElem hp]
      rfl
    rw [← this]
    exact hlt p (by omega)
  exact (List.subperm_of_subset hnd hsub).perm_of_length_le
    (by simp [hlen, List.length_range])

/-- From the matching invariant with an empty free-row list: `in_row` and
`in_col` are mutual-inverse permutations of `[0, n)`. -/
theorem matchInv_empty_perm (n : ℕ) (inCol inRow : List ℕ)
    (h : MatchInv n [] inCol inRow) :
    inRow.length = n ∧ inCol.length = n ∧
    (∀ i, i < n → inRow.getD i 0 < n) ∧
    (∀ j, j < n → inCol.getD j 0 < n) ∧
    (∀ i j, i < n → j < n → (inRow.getD i 0 = j ↔ inCol.getD j 0 = i)) ∧
    inRow.Perm (List.range n) ∧ inCol.Perm (List.range n) := by
  have hrow : ∀ i, i < n → inRow.getD i 0 < n ∧ inCol.getD (inRow.getD i 0) 0 = i :=
    fun i hi => h.rowOk i hi (by simp)
  -- surjectivity of i ↦ inRow[i] on Fin n
  have hsurj : ∀ j, j < n → ∃ i, i < n ∧ inRow.getD i 0 = j := by
    intro j hj
    rcases Nat.eq_zero_or_pos n with hn0 | hn0
    · omega
    have hinj : Function.Injective
        (fun i : Fin n => (⟨inRow.getD i.1 0, (hrow i.1 i.2).1⟩ : Fin n)) := by
      intro a b hab
      have h1 := (hrow a.1 a.2).2
      have h2 := (hrow b.1 b.2).2
      have : inRow.getD a.1 0 = inRow.getD b.1 0 := congrArg Fin.val hab
      apply Fin.ext
      rw [← h1, ← h2, this]
    have hs := Finite.injective_iff_surjective.mp hinj
    obtain ⟨i, hi⟩ := hs ⟨j, hj⟩
    exact ⟨i.1, i.2, congrArg Fin.val hi⟩
  have hcol : ∀ j, j < n → inCol.getD j 0 < n ∧ inRow.getD (inCol.getD j 0) 0 = j := by
    intro j hj
    obtain ⟨i, hi, hij⟩ := hsurj j hj
    have := (hrow i hi).2
    rw [hij] at this
    rw [this]
    exact ⟨hi, hij⟩
  have hiff : ∀ i j, i < n → j < n → (inRow.getD i 0 = j ↔ inCol.getD j 0 = i) := by
    intro i j hi hj
    constructor
    · intro hh
      have := (hrow i hi).2
      rw [hh] at this
      exact this
    · intro hh
      have := (hcol j hj).2
      rw [hh] at this
      exact this
  refine ⟨h.rowLen, h.colLen, fun i hi => (hrow i hi).1, fun j hj => (hcol j hj).1,
    hiff, ?_, ?_⟩
  · refine perm_range_of_getD inRow n h.rowLen (fun p hp => (hrow p hp).1) ?_
    intro p q hp hq he
    have h1 := (hrow p hp).2
    have h2 := (hrow q hq).2
    rw [he] at h1
    rw [h1] at h2
    exact h2
  · refine perm_range_of_getD inCol n h.colLen (fun p hp => (hcol p hp).1) ?_
    intro p q hp hq he
    have h1 := (hcol p hp).2
    have h2 := (hcol q hq).2
    rw [he] at h1
    rw [h1] at h2
    exact h2

end LapJV

namespace LapJV

theorem colMin_fst_lt (m : Matrix) (j : ℕ) (h : 1 ≤ m.nrows) :
    (colMin m j).1 < m.nrows := by
  rw [colMin]
  have : ∀ (L : List ℕ), (∀ x ∈ L, x < m.nrows) →
      ∀ (acc : ℕ × ℚ), acc.1 < m.nrows →
      (L.foldl (fun acc i => if m.entry i j < acc.2 then (i, m.entry i j) else acc)
        acc).1 < m.nrows := by
    intro L
    induction L with
    | nil => intro _ acc hacc; simpa using hacc
    | cons x xs ih =>
      intro hmem acc hacc
      rw [List.foldl_cons]
      by_cases hc : m.entry x j < acc.2
      · rw [if_pos hc]
        exact ih (fun y hy => hmem y (by simp [hy])) _ (hmem x (by simp))
      · rw [if_neg hc]
        exact ih (fun y hy => hmem y (by simp [hy])) _ hacc
  apply this
  · intro x hx
    have := List.mem_of_mem_drop hx
    simpa using this
  · simpa using h

theorem ccrrtCol_fold (m : Matrix) :
    ∀ (L : List ℕ) (a : List ℕ) (b : List ℚ),
      L.foldl (ccrrtColStep m) (a, b) =
        (a ++ L.map (fun j => (colMin m j).1), b ++ L.map (fun j => (colMin m j).2)) := by
  intro L
  induction L with
  | nil => intro a b; simp
  | cons x xs ih =>
    intro a b
    rw [List.foldl_cons, ccrrtColStep]
    dsimp only
    rw [ih]
    simp

theorem getD_map_range (f : ℕ → ℕ) (n j : ℕ) (h : j < n) :
    ((List.range n).map f).getD j 0 = f j := by
  rw [List.getD_eq_getElem?_getD,
    List.getElem?_eq_getElem (by simpa using h)]
  simp

theorem getD_replicate_true (n i : ℕ) (h : i < n) :
    (List.replicate n true).getD i true = true := by
  rw [List.getD_eq_getElem?_getD, List.getElem?_eq_getElem (by simpa using h)]
  simp

end LapJV

namespace LapJV

theorem ccrrtClaimStep_inv (n : ℕ) (inCol0 : List ℕ)
    (hc0 : ∀ j, j < n → inCol0.getD j 0 < n) (hun : n < UNASSIGNED)
    (s : ℕ) (hs : s < n) (z : List Bool × List Bool × List ℕ × List ℕ)
    (hz : CcrrtClaimInv n inCol0 (s + 1) z) :
    CcrrtClaimInv n inCol0 s (ccrrtClaimStep z s) := by
  obtain ⟨u, ns, ic, ir⟩ := z
  obtain ⟨l1, l2, l3, i1, i2, i3⟩ := hz
  dsimp only at l1 l2 l3 i1 i2 i3
  have hics : ic.getD s 0 = inCol0.getD s 0 := i1 s (by omega)
  have hilt : inCol0.getD s 0 < n := hc0 s hs
  by_cases hset : ns.getD (inCol0.getD s 0) true = true
  · have hstep : ccrrtClaimStep (u, ns, ic, ir) s =
        (u, ns.set (inCol0.getD s 0) false, ic, ir.set (inCol0.getD s 0) s) := by
      rw [ccrrtClaimStep]
      dsimp only
      rw [hics, if_pos hset]
    rw [hstep, CcrrtClaimInv]
    dsimp only
    refine ⟨by simpa using l1, l2, by simpa using l3, ?_, ?_, ?_⟩
    · intro j hj
      exact i1 j (by omega)
    · intro j hj1 hj2
      rcases Nat.eq_or_lt_of_le hj1 with rfl | hj
      · right
        refine ⟨hics, ?_, ?_⟩
        · rw [getD_set_self _ _ _ _ (by omega)]
        · rw [getD_set_self _ _ _ _ (by omega)]
      · rcases i2 j (by omega) hj2 with hcase | ⟨e1, e2, e3⟩
        · exact Or.inl hcase
        · right
          have hne : inCol0.getD j 0 ≠ inCol0.getD s 0 := by
            intro heq
            rw [heq] at e3
            rw [e3] at hset
            exact absurd hset (by simp)
          refine ⟨e1, ?_, ?_⟩
          · rw [getD_set_ne _ _ _ _ _ (fun hh => hne hh.symm), e2]
          · rw [getD_set_ne _ _ _ _ _ (fun hh => hne hh.symm), e3]
    · intro i hi hfalse
      by_cases hieq : i = inCol0.getD s 0
      · subst hieq
        exact ⟨s, le_refl s, hs, hics, by rw [getD_set_self _ _ _ _ (by omega)]⟩
      · rw [getD_set_ne _ _ _ _ _ (fun hh => hieq hh.symm)] at hfalse
        obtain ⟨j, hj1, hj2, hj3, hj4⟩ := i3 i hi hfalse
        exact ⟨j, by omega, hj2, hj3,
          by rw [getD_set_ne _ _ _ _ _ (fun hh => hieq hh.symm)]; exact hj4⟩
  · have hset2 : ns.getD (inCol0.getD s 0) true = false := by
      revert hset
      cases ns.getD (inCol0.getD s 0) true <;> simp
    have hstep : ccrrtClaimStep (u, ns, ic, ir) s =
        (u.set (inCol0.getD s 0) false, ns, ic.set s UNASSIGNED, ir) := by
      rw [ccrrtClaimStep]
      dsimp only
      rw [hics, if_neg hset]
    rw [hstep, CcrrtClaimInv]
    dsimp only
    refine ⟨l1, by simpa using l2, l3, ?_, ?_, ?_⟩
    · intro j hj
      rw [getD_set_ne _ _ _ _ _ (by omega), i1 j (by omega)]
    · intro j hj1 hj2
      rcases Nat.eq_or_lt_of_le hj1 with rfl | hj
      · left
        rw [getD_set_self _ _ _ _ (by omega)]
      · rcases i2 j (by omega) hj2 with hcase | ⟨e1, e2, e3⟩
        · left
          rw [getD_set_ne _ _ _ _ _ (by omega), hcase]
        · right
          exact ⟨by rw [getD_set_ne _ _ _ _ _ (by omega)]; exact e1, e2, e3⟩
    · intro i hi hfalse
      obtain ⟨j, hj1, hj2, hj3, hj4⟩ := i3 i hi hfalse
      refine ⟨j, by omega, hj2, ?_, hj4⟩
      rw [getD_set_ne _ _ _ _ _ (by omega)]
      exact hj3

end LapJV

namespace LapJV

theorem ccrrtClaim_fold_inv (n : ℕ) (inCol0 : List ℕ)
    (hc0 : ∀ j, j < n → inCol0.getD j 0 < n) (hun : n < UNASSIGNED) :
    ∀ len s (z : List Bool × List Bool × List ℕ × List ℕ), s + len = n →
      CcrrtClaimInv n inCol0 n z →
      CcrrtClaimInv n inCol0 s
        ((List.range' s len).foldr (fun j acc => ccrrtClaimStep acc j) z) := by
  intro len
  induction len with
  | zero =>
    intro s z hsum hz
    simpa using (by omega : s = n) ▸ hz
  | succ k ih =>
    intro s z hsum hz
    rw [List.range'_succ, List.foldr_cons]
    have hmid := ih (s + 1) z (by omega) hz
    exact ccrrtClaimStep_inv n inCol0 hc0 hun s (by omega) _ hmid

theorem ccrrtTransfer_fold (m : Matrix) (dim : ℕ) (notSet unique : List Bool) :
    ∀ (L : List ℕ) (st : St),
      (L.foldl (ccrrtTransferStep m dim notSet unique) st).dim = st.dim ∧
      (L.foldl (ccrrtTransferStep m dim notSet unique) st).inCol = st.inCol ∧
      (L.foldl (ccrrtTransferStep m dim notSet unique) st).inRow = st.inRow ∧
      (L.foldl (ccrrtTransferStep m dim notSet unique) st).freeRows =
        st.freeRows ++ L.filter (fun i => notSet.getD i true) := by
  intro L
  induction L with
  | nil => intro st; simp
  | cons x xs ih =>
    intro st
    rw [List.foldl_cons]
    have hstep : (ccrrtTransferStep m dim notSet unique st x).dim = st.dim ∧
        (ccrrtTransferStep m dim notSet unique st x).inCol = st.inCol ∧
        (ccrrtTransferStep m dim notSet unique st x).inRow = st.inRow ∧
        (ccrrtTransferStep m dim notSet unique st x).freeRows =
          st.freeRows ++ (if notSet.getD x true then [x] else []) := by
      rw [ccrrtTransferStep]
      by_cases hx : notSet.getD x true = true
      · rw [if_pos hx, if_pos hx]
        exact ⟨rfl, rfl, rfl, rfl⟩
      · rw [if_neg hx, if_neg hx]
        by_cases hu : unique.getD x true = true
        · rw [if_pos hu]
          simp
        · rw [if_neg hu]
          simp
    obtain ⟨h1, h2, h3, h4⟩ := ih (ccrrtTransferStep m dim notSet unique st x)
    rw [List.filter_cons]
    refine ⟨by rw [h1, hstep.1], by rw [h2, hstep.2.1], by rw [h3, hstep.2.2.1], ?_⟩
    rw [h4, hstep.2.2.2]
    by_cases hx : notSet.getD x true = true
    · rw [if_pos hx, if_pos hx, List.append_assoc, List.singleton_append]
    · rw [if_neg hx, if_neg hx, List.append_nil]

end LapJV

namespace LapJV

theorem ccrrt_matchInv (m : Matrix) (hsq : m.nrows = m.ncols)
    (hun : m.nrows < UNASSIGNED) (st : St) (hdim : st.dim = m.nrows)
    (hlen : st.inRow.length = m.nrows) (hic : st.inCol = []) (hv : st.v = [])
    (hfr : st.freeRows = []) :
    (ccrrt_dense m st).dim = m.nrows ∧
    MatchInv m.nrows (ccrrt_dense m st).freeRows (ccrrt_dense m st).inCol
      (ccrrt_dense m st).inRow := by
  have hstep1 : (List.range m.ncols).foldl (ccrrtColStep m) (st.inCol, st.v) =
      ((List.range m.ncols).map (fun j => (colMin m j).1),
       (List.range m.ncols).map (fun j => (colMin m j).2)) := by
    rw [hic, hv, ccrrtCol_fold]
    simp
  have hic0len : ((List.range m.ncols).map (fun j => (colMin m j).1)).length
      = m.nrows := by simp [hsq]
  have hc0 : ∀ j, j < m.nrows →
      ((List.range m.ncols).map (fun j => (colMin m j).1)).getD j 0 < m.nrows := by
    intro j hj
    rw [getD_map_range _ _ _ (by omega)]
    exact colMin_fst_lt m j (by omega)
  have hinit : CcrrtClaimInv m.nrows
      ((List.range m.ncols).map (fun j => (colMin m j).1)) m.nrows
      (List.replicate st.dim true, List.replicate st.dim true,
       (List.range m.ncols).map (fun j => (colMin m j).1), st.inRow) := by
    refine ⟨by simp [hdim], hic0len, hlen, fun j hj => rfl,
      fun j hj1 hj2 => by omega, ?_⟩
    intro i hi hfalse
    rw [hdim] at hfalse
    dsimp only at hfalse
    rw [getD_replicate_true _ _ hi] at hfalse
    cases hfalse
  have hfold2 := ccrrtClaim_fold_inv m.nrows
    ((List.range m.ncols).map (fun j => (colMin m j).1)) hc0 hun m.nrows 0 _
    (by omega) hinit
  rw [show List.range' 0 m.nrows = List.range m.nrows from
    (List.range_eq_range' m.nrows).symm] at hfold2
  rw [hdim] at hfold2
  rw [ccrrt_dense, hstep1]
  dsimp only
  rw [List.foldl_reverse, hdim]
  revert hfold2
  generalize (List.range m.nrows).foldr (fun j acc => ccrrtClaimStep acc j)
      (List.replicate m.nrows true, List.replicate m.nrows true,
       (List.range m.ncols).map (fun j => (colMin m j).1), st.inRow) = Z
  intro hfold2
  obtain ⟨l1, l2, l3, i1, i2, i3⟩ := hfold2
  obtain ⟨z1, z2, z3, z4⟩ := ccrrtTransfer_fold m m.nrows Z.2.1 Z.1
    (List.range m.nrows)
    { st with
        dim := m.nrows,
        v := (List.range m.ncols).map (fun j => (colMin m j).2),
        inCol := Z.2.2.1, inRow := Z.2.2.2 }
  rw [z1, z2, z3, z4]
  dsimp only
  rw [hfr, List.nil_append]
  refine ⟨rfl, ?_, ?_, ?_, ?_, ?_, ?_⟩
  · exact l2
  · exact l3
  · exact (List.nodup_range m.nrows).filter _
  · intro i hmem
    have h2 := List.mem_filter.mp hmem
    have := List.mem_range.mp h2.1
    omega
  · intro j hj hne
    rcases i2 j (by omega) hj with hcase | ⟨e1, e2, e3⟩
    · exact absurd hcase hne
    · rw [e1]
      refine ⟨hc0 j hj, e2, ?_⟩
      intro hmem
      have := (List.mem_filter.mp hmem).2
      rw [e3] at this
      cases this
  · intro i hi hnmem
    have hcond : Z.2.1.getD i true = false := by
      by_contra hcond
      apply hnmem
      rw [List.mem_filter]
      refine ⟨List.mem_range.mpr (by omega), ?_⟩
      revert hcond
      cases Z.2.1.getD i true <;> simp
    obtain ⟨j, hj1, hj2, hj3, hj4⟩ := i3 i hi hcond
    rw [hj4]
    exact ⟨hj2, hj3⟩

end LapJV

namespace LapJV

theorem find_umins_idx_lt (lc v : List ℚ) (h : 1 ≤ lc.length) :
    (find_umins_plain lc v).2.2.1 < lc.length ∧
    (∀ jj, (find_umins_plain lc v).2.2.2 = some jj → jj < lc.length) := by
  rw [find_umins_plain]
  have hgen : ∀ (L : List ℕ), (∀ x ∈ L, x < lc.length) →
      ∀ (acc : ℚ × ℚ × ℕ × Option ℕ), acc.2.2.1 < lc.length →
      (∀ jj, acc.2.2.2 = some jj → jj < lc.length) →
      (L.foldl (uminsStep lc v) acc).2.2.1 < lc.length ∧
      (∀ jj, (L.foldl (uminsStep lc v) acc).2.2.2 = some jj → jj < lc.length) := by
    intro L
    induction L with
    | nil => intro _ acc h1 h2; exact ⟨h1, h2⟩
    | cons x xs ih =>
      intro hmem acc h1 h2
      rw [List.foldl_cons]
      apply ih (fun y hy => hmem y (by simp [hy]))
      · rw [uminsStep]
        split
        · split
          · exact h1
          · exact hmem x (by simp)
        · exact h1
      · rw [uminsStep]
        split
        · split
          · intro jj hjj
            cases hjj
            exact hmem x (by simp)
          · intro jj hjj
            cases hjj
            exact h1
        · exact h2
  apply hgen
  · intro x hx
    have := List.mem_of_mem_drop hx
    simpa using this
  · simpa using h
  · intro jj hjj
    cases hjj

theorem drop_set_self {α} (l : List α) (k : ℕ) (x : α) (h : k < l.length) :
    (l.set k x).drop k = x :: l.drop (k + 1) := by
  apply List.ext_getElem?
  intro i
  rw [List.getElem?_drop]
  cases i with
  | zero =>
    rw [List.getElem?_set, if_pos (by omega), if_pos h]
    simp
  | succ i2 =>
    rw [List.getElem?_set, if_neg (by omega)]
    simp only [List.getElem?_cons_succ, List.getElem?_drop]
    congr 1
    omega

theorem matchInv_perm (n : ℕ) (FS FS2 : List ℕ) (inCol inRow : List ℕ)
    (hp : FS.Perm FS2) (h : MatchInv n FS inCol inRow) :
    MatchInv n FS2 inCol inRow := by
  refine ⟨h.colLen, h.rowLen, h.nodup.perm hp, ?_, ?_, ?_⟩
  · intro i hi
    exact h.freeLt i (hp.symm.subset hi)
  · intro j hj hne
    obtain ⟨b1, b2, b3⟩ := h.colOk j hj hne
    exact ⟨b1, b2, fun hmem => b3 (hp.symm.subset hmem)⟩
  · intro i hi hnmem
    exact h.rowOk i hi (fun hmem => hnmem (hp.subset hmem))

end LapJV

namespace LapJV

theorem carr_assign_matchInv (n : ℕ) (hn : n < UNASSIGNED)
    (FS1 FS2 : List ℕ) (free_i J : ℕ) (inCol inRow : List ℕ)
    (h : MatchInv n (FS1 ++ free_i :: FS2) inCol inRow) (hJ : J < n) :
    MatchInv n ((FS1 ++ FS2) ++
        (if inCol.getD J 0 ≠ UNASSIGNED then [inCol.getD J 0] else []))
      (inCol.set J free_i) (inRow.set free_i J) := by
  have hfree_mem : free_i ∈ FS1 ++ free_i :: FS2 :=
    List.mem_append_right _ (List.mem_cons_self _ _)
  have hfree_lt : free_i < n := h.freeLt free_i hfree_mem
  have hnodup := h.nodup
  have hfs1nd : FS1.Nodup := (List.nodup_append.mp hnodup).1
  have hfs2nd : (free_i :: FS2).Nodup := (List.nodup_append.mp hnodup).2.1
  have hdisj := (List.nodup_append.mp hnodup).2.2
  have hfi_fs2 : free_i ∉ FS2 := (List.nodup_cons.mp hfs2nd).1
  have hfi_fs1 : free_i ∉ FS1 := fun hmem => hdisj hmem (List.mem_cons_self _ _)
  have hmem_fs : ∀ x, x ∈ FS1 ++ FS2 → x ∈ FS1 ++ free_i :: FS2 := by
    intro x hx
    rcases List.mem_append.mp hx with hx | hx
    · exact List.mem_append_left _ hx
    · exact List.mem_append_right _ (List.mem_cons_of_mem _ hx)
  have hi0fact : inCol.getD J 0 ≠ UNASSIGNED →
      inCol.getD J 0 < n ∧ inRow.getD (inCol.getD J 0) 0 = J ∧
      inCol.getD J 0 ∉ FS1 ++ free_i :: FS2 := fun hne => h.colOk J hJ hne
  have hFSmem : ∀ x, x ∈ (FS1 ++ FS2) ++
      (if inCol.getD J 0 ≠ UNASSIGNED then [inCol.getD J 0] else []) ↔
      (x ∈ FS1 ∨ x ∈ FS2 ∨
       (x = inCol.getD J 0 ∧ inCol.getD J 0 ≠ UNASSIGNED)) := by
    intro x
    rw [List.mem_append, List.mem_append]
    constructor
    · rintro ((hx | hx) | hx)
      · exact Or.inl hx
      · exact Or.inr (Or.inl hx)
      · right; right
        revert hx
        split
        · rename_i hcond
          intro hx
          exact ⟨List.mem_singleton.mp hx, hcond⟩
        · intro hx; cases hx
    · rintro (hx | hx | ⟨rfl, hne⟩)
      · exact Or.inl (Or.inl hx)
      · exact Or.inl (Or.inr hx)
      · right
        rw [if_pos hne]
        exact List.mem_singleton.mpr rfl
  have hfi_ne_i0 : inCol.getD J 0 ≠ UNASSIGNED → free_i ≠ inCol.getD J 0 := by
    intro hne heq
    exact (hi0fact hne).2.2 (heq ▸ hfree_mem)
  refine ⟨by simpa using h.colLen, by simpa using h.rowLen, ?_, ?_, ?_, ?_⟩
  · -- Nodup
    rw [List.nodup_append]
    refine ⟨(List.nodup_append.mp hnodup).1.append
        (List.nodup_cons.mp hfs2nd).2 ?_, ?_, ?_⟩
    · intro x hx1 hx2
      exact hdisj hx1 (List.mem_cons_of_mem _ hx2)
    · split
      · simp
      · simp
    · intro x hx1 hx2
      revert hx2
      split
      · rename_i hcond
        intro hx2
        have hxeq := List.mem_singleton.mp hx2
        subst hxeq
        exact (hi0fact hcond).2.2 (hmem_fs _ hx1)
      · intro hx2; cases hx2
  · -- members in range
    intro x hx
    rcases (hFSmem x).mp hx with hx | hx | ⟨rfl, hne⟩
    · exact h.freeLt x (List.mem_append_left _ hx)
    · exact h.freeLt x (List.mem_append_right _ (List.mem_cons_of_mem _ hx))
    · exact (hi0fact hne).1
  · -- colOk
    intro j hj hne
    by_cases hjJ : j = J
    · subst hjJ
      rw [getD_set_self _ _ _ _ (by rw [h.colLen]; omega)]
      refine ⟨hfree_lt, by rw [getD_set_self _ _ _ _ (by rw [h.rowLen]; omega)], ?_⟩
      intro hmem
      rcases (hFSmem free_i).mp hmem with hx | hx | ⟨heq, hcond⟩
      · exact hfi_fs1 hx
      · exact hfi_fs2 hx
      · exact hfi_ne_i0 hcond heq
    · rw [getD_set_ne _ _ _ _ _ (fun hh => hjJ hh.symm)] at hne ⊢
      obtain ⟨c1, c2, c3⟩ := h.colOk j hj hne
      have hic_ne_fi : inCol.getD j 0 ≠ free_i := fun hh => c3 (hh ▸ hfree_mem)
      refine ⟨c1, by rw [getD_set_ne _ _ _ _ _ (fun hh => hic_ne_fi hh.symm)]; exact c2, ?_⟩
      intro hmem
      rcases (hFSmem _).mp hmem with hx | hx | ⟨heq, hcond⟩
      · exact c3 (List.mem_append_left _ hx)
      · exact c3 (List.mem_append_right _ (List.mem_cons_of_mem _ hx))
      · -- inCol j = inCol J: both assigned, back-pointers disagree (j ≠ J)
        have h2 := (hi0fact hcond).2.1
        rw [← heq] at h2
        rw [c2] at h2
        exact hjJ h2
  · -- rowOk
    intro i hi hnmem
    by_cases hifi : i = free_i
    · subst hifi
      rw [getD_set_self _ _ _ _ (by rw [h.rowLen]; omega)]
      exact ⟨hJ, by rw [getD_set_self _ _ _ _ (by rw [h.colLen]; omega)]⟩
    · have hnotfs : i ∉ FS1 ++ free_i :: FS2 := by
        intro hmem
        rcases List.mem_append.mp hmem with hx | hx
        · exact hnmem ((hFSmem i).mpr (Or.inl hx))
        · rcases List.mem_cons.mp hx with hx2 | hx2
          · exact hifi hx2
          · exact hnmem ((hFSmem i).mpr (Or.inr (Or.inl hx2)))
      obtain ⟨r1, r2⟩ := h.rowOk i hi hnotfs
      rw [getD_set_ne _ _ _ _ _ (fun hh => hifi hh.symm)]
      refine ⟨r1, ?_⟩
      have hir_ne_J : inRow.getD i 0 ≠ J := by
        intro hh
        rw [hh] at r2
        by_cases hcond : inCol.getD J 0 = UNASSIGNED
        · rw [r2] at hcond
          omega
        · exact hnmem ((hFSmem i).mpr (Or.inr (Or.inr ⟨r2.symm, hcond⟩)))
      rw [getD_set_ne _ _ _ _ _ (fun hh => hir_ne_J hh.symm)]
      exact r2

end LapJV

namespace LapJV

theorem perm_insert_mid (a b : List ℕ) (x : ℕ) :
    ((a ++ b) ++ [x]).Perm (a ++ x :: b) := by
  have h1 : ((a ++ b) ++ [x]).Perm (x :: (a ++ b)) :=
    List.perm_append_singleton x (a ++ b)
  exact h1.trans List.perm_middle.symm

theorem carrFS_S1 {freeRows : List ℕ} {current newFree : ℕ} (i0 : ℕ)
    (hcur : current < freeRows.length) (hle : newFree ≤ current) :
    (freeRows.set current i0).take newFree ++
      (freeRows.set current i0).drop current =
    freeRows.take newFree ++ i0 :: freeRows.drop (current + 1) := by
  rw [take_set_of_le _ _ _ _ hle, drop_set_self _ _ _ hcur]

theorem carrFS_S2 {freeRows : List ℕ} {current newFree : ℕ} (i0 : ℕ)
    (hcur : current < freeRows.length) (hle : newFree ≤ current) :
    (freeRows.set newFree i0).take (newFree + 1) ++
      (freeRows.set newFree i0).drop (current + 1) =
    (freeRows.take newFree ++ [i0]) ++ freeRows.drop (current + 1) := by
  rw [set_take_succ _ _ _ (by omega), drop_set_of_lt _ _ _ _ (by omega)]

end LapJV

namespace LapJV

theorem carrLoop_matchInv (m : Matrix) (n : ℕ) (hn : n < UNASSIGNED)
    (hsq : m.ncols = n) (numFree : ℕ) :
    ∀ fuel freeRows v inCol inRow current newFree rrCnt
      (res : List ℕ × List ℚ × List ℕ × List ℕ × ℕ),
      freeRows.length = numFree →
      newFree ≤ current → current ≤ numFree →
      MatchInv n (freeRows.take newFree ++ freeRows.drop current) inCol inRow →
      carrLoop m n numFree fuel freeRows v inCol inRow current newFree rrCnt =
        some res →
      MatchInv n (res.1.take res.2.2.2.2) res.2.2.1 res.2.2.2.1 := by
  intro fuel
  induction fuel with
  | zero =>
    intro freeRows v inCol inRow current newFree rrCnt res _ _ _ _ hres
    simp [carrLoop] at hres
  | succ f ih =>
    intro freeRows v inCol inRow current newFree rrCnt res hlen hle hcur hminv hres
    rw [carrLoop] at hres
    by_cases hlt : current < numFree
    · rw [if_pos hlt] at hres
      dsimp only at hres
      have hcurlen : current < freeRows.length := by omega
      have hdropc : freeRows.drop current =
          freeRows.getD current 0 :: freeRows.drop (current + 1) :=
        drop_eq_getD_cons _ _ _ hcurlen
      rw [hdropc] at hminv
      have hfi_lt : freeRows.getD current 0 < n :=
        hminv.freeLt _ (List.mem_append_right _ (List.mem_cons_self _ _))
      have hn1 : 1 ≤ n := by omega
      have hrowlen : (m.rowList (freeRows.getD current 0)).length = n := by
        simp [Matrix.rowList, hsq]
      have hidx := find_umins_idx_lt (m.rowList (freeRows.getD current 0)) v
        (by omega)
      rw [hrowlen] at hidx
      have hj1lt : (find_umins_plain (m.rowList (freeRows.getD current 0)) v).2.2.1
          < n := hidx.1
      have hcore : ∀ J, J < n →
          MatchInv n
            ((freeRows.take newFree ++ freeRows.drop (current + 1)) ++
              (if inCol.getD J 0 ≠ UNASSIGNED then [inCol.getD J 0] else []))
            (inCol.set J (freeRows.getD current 0))
            (inRow.set (freeRows.getD current 0) J) :=
        fun J hJ => carr_assign_matchInv n hn _ _ _ J inCol inRow hminv hJ
      rcases hj2eq : (find_umins_plain (m.rowList (freeRows.getD current 0)) v).2.2.2
        with _ | jj
      all_goals rw [hj2eq] at hres
      -- j2 = none
      · split at hres
        · -- rr_cnt < current * dim
          split at hres
          · -- v1_lowers
            split at hres
            · -- i0 ≠ UNASSIGNED : backtrack, S1
              rename_i hv1 hi0
              dsimp only at hres hi0
              rw [Nat.add_sub_cancel] at hres
              refine ih _ _ _ _ current newFree (rrCnt + 1) res
                (by rw [List.length_set]; exact hlen) hle (by omega) ?_ hres
              rw [carrFS_S1 _ hcurlen hle]
              refine matchInv_perm n _ _ _ _ (perm_insert_mid _ _ _) ?_
              have hc := hcore _ hj1lt
              rw [if_pos hi0] at hc
              exact hc
            · -- S3
              rename_i hv1 hi0
              dsimp only at hres hi0
              refine ih _ _ _ _ (current + 1) newFree (rrCnt + 1) res
                hlen (by omega) (by omega) ?_ hres
              have hc := hcore _ hj1lt
              rw [if_neg hi0, List.append_nil] at hc
              exact hc
          · -- not v1_lowers, j2 none: vj1i0 = (v, j1, i0) in both subcases
            split at hres
            · -- i0 ≠ UNASSIGNED : S2
              rename_i hv1 hi0
              try dsimp only at hres hi0
              refine ih _ _ _ _ (current + 1) (newFree + 1) (rrCnt + 1) res
                (by rw [List.length_set]; exact hlen) (by omega) (by omega)
                ?_ hres
              rw [carrFS_S2 _ hcurlen hle, List.append_assoc,
                List.singleton_append]
              refine matchInv_perm n _ _ _ _ (perm_insert_mid _ _ _) ?_
              have hc := hcore _ hj1lt
              rw [if_pos hi0] at hc
              exact hc
            · -- S3
              rename_i hv1 hi0
              try dsimp only at hres hi0
              refine ih _ _ _ _ (current + 1) newFree (rrCnt + 1) res
                hlen (by omega) (by omega) ?_ hres
              have hc := hcore _ hj1lt
              rw [if_neg hi0, List.append_nil] at hc
              exact hc
        · -- rr_cnt ≥ current * dim
          split at hres
          · -- S2
            rename_i hi0
            try dsimp only at hres hi0
            refine ih _ _ _ _ (current + 1) (newFree + 1) (rrCnt + 1) res
              (by rw [List.length_set]; exact hlen) (by omega) (by omega)
              ?_ hres
            rw [carrFS_S2 _ hcurlen hle, List.append_assoc,
              List.singleton_append]
            refine matchInv_perm n _ _ _ _ (perm_insert_mid _ _ _) ?_
            have hc := hcore _ hj1lt
            rw [if_pos hi0] at hc
            exact hc
          · -- S3
            rename_i hi0
            try dsimp only at hres hi0
            refine ih _ _ _ _ (current + 1) newFree (rrCnt + 1) res
              hlen (by omega) (by omega) ?_ hres
            have hc := hcore _ hj1lt
            rw [if_neg hi0, List.append_nil] at hc
            exact hc
      -- j2 = some jj
      · have hjjlt : jj < n := hidx.2 jj hj2eq
        split at hres
        · -- rr_cnt < current * dim
          split at hres
          · -- v1_lowers
            split at hres
            · -- i0 ≠ UNASSIGNED : backtrack, S1
              rename_i hv1 hi0
              dsimp only at hres hi0
              rw [Nat.add_sub_cancel] at hres
              refine ih _ _ _ _ current newFree (rrCnt + 1) res
                (by rw [List.length_set]; exact hlen) hle (by omega) ?_ hres
              rw [carrFS_S1 _ hcurlen hle]
              refine matchInv_perm n _ _ _ _ (perm_insert_mid _ _ _) ?_
              have hc := hcore _ hj1lt
              rw [if_pos hi0] at hc
              exact hc
            · -- S3
              rename_i hv1 hi0
              dsimp only at hres hi0
              refine ih _ _ _ _ (current + 1) newFree (rrCnt + 1) res
                hlen (by omega) (by omega) ?_ hres
              have hc := hcore _ hj1lt
              rw [if_neg hi0, List.append_nil] at hc
              exact hc
          · -- not v1_lowers: swap to jj if i0 assigned
            split at hres
            · -- i0 ≠ UNASSIGNED: swapped, J = jj
              rename_i hv1 hi0orig
              try dsimp only at hres
              split at hres
              · -- inCol[jj] ≠ UNASSIGNED : S2
                rename_i hi0b
                try dsimp only at hres hi0b
                refine ih _ _ _ _ (current + 1) (newFree + 1) (rrCnt + 1) res
                  (by rw [List.length_set]; exact hlen) (by omega) (by omega)
                  ?_ hres
                rw [carrFS_S2 _ hcurlen hle, List.append_assoc,
                  List.singleton_append]
                refine matchInv_perm n _ _ _ _ (perm_insert_mid _ _ _) ?_
                have hc := hcore _ hjjlt
                rw [if_pos hi0b] at hc
                exact hc
              · -- S3 with J = jj
                rename_i hi0b
                try dsimp only at hres hi0b
                refine ih _ _ _ _ (current + 1) newFree (rrCnt + 1) res
                  hlen (by omega) (by omega) ?_ hres
                have hc := hcore _ hjjlt
                rw [if_neg hi0b, List.append_nil] at hc
                exact hc
            · -- i0 = UNASSIGNED: no swap, no requeue, S3 with J = j1
              rename_i hv1 hi0orig
              refine ih _ _ _ _ (current + 1) newFree (rrCnt + 1) res
                hlen (by omega) (by omega) ?_ hres
              have hc := hcore _ hj1lt
              rw [if_neg hi0orig, List.append_nil] at hc
              exact hc
        · -- rr_cnt ≥ current * dim
          split at hres
          · -- S2
            rename_i hi0
            try dsimp only at hres hi0
            refine ih _ _ _ _ (current + 1) (newFree + 1) (rrCnt + 1) res
              (by rw [List.length_set]; exact hlen) (by omega) (by omega)
              ?_ hres
            rw [carrFS_S2 _ hcurlen hle, List.append_assoc,
              List.singleton_append]
            refine matchInv_perm n _ _ _ _ (perm_insert_mid _ _ _) ?_
            have hc := hcore _ hj1lt
            rw [if_pos hi0] at hc
            exact hc
          · -- S3
            rename_i hi0
            try dsimp only at hres hi0
            refine ih _ _ _ _ (current + 1) newFree (rrCnt + 1) res
              hlen (by omega) (by omega) ?_ hres
            have hc := hcore _ hj1lt
            rw [if_neg hi0, List.append_nil] at hc
            exact hc
    · rw [if_neg hlt] at hres
      simp only [Option.some.injEq] at hres
      subst hres
      dsimp only
      have hdrop : freeRows.drop current = [] :=
        List.drop_eq_nil_of_le (by omega)
      rw [hdrop, List.append_nil] at hminv
      exact hminv

end LapJV

namespace LapJV

theorem carr_dense_matchInv (m : Matrix) (n : ℕ) (hn : n < UNASSIGNED)
    (hsq : m.ncols = n) (st st' : St) (hdim : st.dim = n)
    (hminv : MatchInv n st.freeRows st.inCol st.inRow)
    (h : carr_dense m st = some st') :
    st'.dim = n ∧ MatchInv n st'.freeRows st'.inCol st'.inRow := by
  rw [carr_dense] at h
  rw [hdim] at h
  split at h
  · exact absurd h (by simp)
  · rename_i r freeRows2 v2 inCol2 inRow2 newFree2 hloop
    simp only [Option.some.injEq] at h
    subst h
    dsimp only
    have := carrLoop_matchInv m n hn hsq st.freeRows.length _ st.freeRows st.v
      st.inCol st.inRow 0 0 0 (freeRows2, v2, inCol2, inRow2, newFree2)
      rfl (le_refl 0) (by omega) (by simpa using hminv) hloop
    exact ⟨rfl, this⟩

end LapJV

namespace LapJV

theorem set_getD_self (l : List ℕ) (i : ℕ) : l.set i (l.getD i 0) = l := by
  apply List.ext_getElem?
  intro k
  rw [List.getElem?_set]
  by_cases hik : i = k
  · subst hik
    by_cases hlen : i < l.length
    · rw [if_pos rfl, if_pos hlen, List.getD_eq_getElem?_getD,
        List.getElem?_eq_getElem hlen]
      simp
    · rw [if_pos rfl, if_neg hlen]
      symm
      exact List.getElem?_eq_none (by omega)
  · rw [if_neg hik]

theorem count_set (l : List ℕ) (i x c : ℕ) (h : i < l.length) :
    (l.set i x).count c + (if l.getD i 0 = c then 1 else 0) =
    l.count c + (if x = c then 1 else 0) := by
  have hdecomp : l = l.take i ++ l.getD i 0 :: l.drop (i + 1) := by
    conv_lhs => rw [← set_getD_self l i]
    exact List.set_eq_take_cons_drop _ h
  rw [List.set_eq_take_cons_drop _ h]
  conv_rhs => rw [hdecomp]
  rw [List.count_append, List.count_append, List.count_cons, List.count_cons]
  by_cases h1 : l.getD i 0 = c <;> by_cases h2 : x = c <;>
    simp [h1, h2] <;> omega

theorem set_set_perm (l : List ℕ) (a b : ℕ) (ha : a < l.length)
    (hb : b < l.length) :
    ((l.set a (l.getD b 0)).set b (l.getD a 0)).Perm l := by
  rw [List.perm_iff_count]
  intro c
  have hlen1 : b < (l.set a (l.getD b 0)).length := by
    rw [List.length_set]; omega
  have e1 := count_set (l.set a (l.getD b 0)) b (l.getD a 0) c hlen1
  have e2 := count_set l a (l.getD b 0) c ha
  have hgd : (l.set a (l.getD b 0)).getD b 0 = l.getD b 0 := by
    by_cases hab : a = b
    · subst hab
      exact getD_set_self _ _ _ _ ha
    · exact getD_set_ne _ _ _ _ _ hab
  rw [hgd] at e1
  by_cases h1 : l.getD a 0 = c <;> by_cases h2 : l.getD b 0 = c
  · rw [if_pos h1, if_pos h2] at e1 e2
    omega
  · rw [if_pos h1] at e1 e2
    rw [if_neg h2] at e1 e2
    omega
  · rw [if_neg h1] at e1 e2
    rw [if_pos h2] at e1 e2
    omega
  · rw [if_neg h1] at e1 e2
    rw [if_neg h2] at e1 e2
    omega

end LapJV

namespace LapJV

theorem chainOK_stable (inCol0 : List ℕ) (freerow : ℕ) :
    ∀ p (pred pred' collist collist' : List ℕ) j,
      ChainOK inCol0 pred collist freerow p j →
      (∀ q, q < p → collist'.getD q 0 = collist.getD q 0) →
      (∀ q, q < p → pred'.getD (collist.getD q 0) 0 = pred.getD (collist.getD q 0) 0) →
      pred'.getD j 0 = pred.getD j 0 →
      ChainOK inCol0 pred' collist' freerow p j := by
  intro p
  induction p using Nat.strong_induction_on with
  | _ p ih =>
    intro pred pred' collist collist' j hck hcol hpred hj
    rw [ChainOK] at hck ⊢
    rcases hck with hck | ⟨q, hq, e1, e2, hnest⟩
    · left
      rw [hj, hck]
    · right
      refine ⟨q, hq, ?_, ?_, ?_⟩
      · rw [hj, hcol q hq, e1]
      · rw [hcol q hq]
        exact e2
      · rw [hcol q hq]
        exact ih q hq pred pred' collist collist' _ hnest
          (fun q2 hq2 => hcol q2 (by omega))
          (fun q2 hq2 => hpred q2 (by omega))
          (hpred q hq)

end LapJV

namespace LapJV

theorem chainOK_extract (n : ℕ) (inCol0 pred collist : List ℕ) (freerow : ℕ)
    (hnd : collist.Nodup) (hclen : collist.length = n)
    (hmem : ∀ c ∈ collist, c < n) :
    ∀ p j, p ≤ n → ChainOK inCol0 pred collist freerow p j →
      ∃ cs : List ℕ, Chain inCol0 pred freerow cs j ∧
        cs.length ≤ p ∧
        (∀ c ∈ cs, ∃ q, q < p ∧ collist.getD q 0 = c) ∧
        cs.Nodup ∧
        (∀ c ∈ cs, inCol0.getD c 0 ≠ UNASSIGNED ∧ c < n) := by
  intro p
  induction p using Nat.strong_induction_on with
  | _ p ih =>
    intro j hp hck
    rw [ChainOK] at hck
    rcases hck with hck | ⟨q, hq, e1, e2, hnest⟩
    · exact ⟨[], hck, by simp, by simp, List.nodup_nil, by simp⟩
    · obtain ⟨cs, hchain, hlen, hpos, hnodup, hprop⟩ :=
        ih q hq _ (by omega) hnest
      refine ⟨collist.getD q 0 :: cs, ⟨e1, e2, hchain⟩, by simpa using (by omega : cs.length + 1 ≤ p), ?_, ?_, ?_⟩
      · intro c hc
        rcases List.mem_cons.mp hc with rfl | hc
        · exact ⟨q, hq, rfl⟩
        · obtain ⟨q2, hq2, he⟩ := hpos c hc
          exact ⟨q2, by omega, he⟩
      · rw [List.nodup_cons]
        refine ⟨?_, hnodup⟩
        intro hmem2
        obtain ⟨q2, hq2, he⟩ := hpos _ hmem2
        have := nodup_getD_ne collist hnd (p := q) (q := q2)
          (by omega) (by omega) (by omega)
        exact this he.symm
      · intro c hc
        rcases List.mem_cons.mp hc with rfl | hc
        · exact ⟨e2, hmem _ (getD_mem _ _ (by omega))⟩
        · exact hprop c hc

end LapJV

namespace LapJV

theorem ca_walk_chain (n : ℕ) (hn : n < UNASSIGNED) (freerow : ℕ)
    (hfr : freerow < n) (inCol0 inRow0 pred : List ℕ)
    (hB : ∀ c, c < n → inCol0.getD c 0 ≠ UNASSIGNED →
      inCol0.getD c 0 < n ∧ inRow0.getD (inCol0.getD c 0) 0 = c ∧
      inCol0.getD c 0 ≠ freerow) :
    ∀ cs j fuel i k (inColC inRowC : List ℕ),
      Chain inCol0 pred freerow cs j →
      j < n → j ∉ cs → cs.Nodup →
      (∀ c ∈ cs, inRowC.getD (inCol0.getD c 0) 0 =
        inRow0.getD (inCol0.getD c 0) 0) →
      (∀ c ∈ cs, c < n ∧ inCol0.getD c 0 ≠ UNASSIGNED) →
      i ≠ freerow →
      inColC.length = n → inRowC.length = n →
      k + cs.length + 1 ≤ n →
      cs.length + 2 ≤ fuel →
      ∃ inColF inRowF,
        ca_walk n freerow pred fuel i j k inColC inRowC =
          some (.ok (inColF, inRowF)) ∧
        inColF.length = n ∧ inRowF.length = n ∧
        (∀ c, c ≠ j → c ∉ cs → inColF.getD c 0 = inColC.getD c 0) ∧
        (∀ r, r ≠ freerow → (∀ c ∈ cs, r ≠ inCol0.getD c 0) →
          inRowF.getD r 0 = inRowC.getD r 0) ∧
        (∀ c ∈ (j :: cs), inColF.getD c 0 < n ∧
          inRowF.getD (inColF.getD c 0) 0 = c) ∧
        (∀ c ∈ (j :: cs), inColF.getD c 0 = freerow ∨
          ∃ c2 ∈ cs, inColF.getD c 0 = inCol0.getD c2 0) ∧
        (∀ r, (∃ c2 ∈ cs, r = inCol0.getD c2 0) →
          ∃ c ∈ (j :: cs), inColF.getD c 0 = r) ∧
        (∃ c ∈ (j :: cs), inColF.getD c 0 = freerow) := by
  intro cs
  induction cs with
  | nil =>
    intro j fuel i k inColC inRowC hchain hj hjcs hnd hrows hprops hine hlc hlr
      hk hfuel
    obtain ⟨f, rfl⟩ : ∃ f, fuel = f + 1 := ⟨fuel - 1, by omega⟩
    obtain ⟨f2, rfl⟩ : ∃ f2, f = f2 + 1 := ⟨f - 1, by simp at hfuel; omega⟩
    rw [Chain] at hchain
    refine ⟨inColC.set j freerow, inRowC.set freerow j, ?_, by simpa using hlc,
      by simpa using hlr, ?_, ?_, ?_, ?_, ?_, ?_⟩
    · rw [ca_walk]
      rw [if_neg hine]
      dsimp only
      rw [hchain]
      rw [if_neg (by simp at hk ⊢; omega)]
      rw [ca_walk]
      rw [if_pos rfl]
    · intro c hcj _
      exact getD_set_ne _ _ _ _ _ (fun hh => hcj hh.symm)
    · intro r hrf _
      exact getD_set_ne _ _ _ _ _ (fun hh => hrf hh.symm)
    · intro c hc
      rcases List.mem_cons.mp hc with rfl | hc2
      · rw [getD_set_self _ _ _ _ (by omega)]
        exact ⟨hfr, by rw [getD_set_self _ _ _ _ (by omega)]⟩
      · cases hc2
    · intro c hc
      rcases List.mem_cons.mp hc with rfl | hc2
      · left
        rw [getD_set_self _ _ _ _ (by omega)]
      · cases hc2
    · intro r ⟨c2, hc2, _⟩
      cases hc2
    · exact ⟨j, List.mem_cons_self _ _, by rw [getD_set_self _ _ _ _ (by omega)]⟩
  | cons c1 cs ih =>
    intro j fuel i k inColC inRowC hchain hj hjcs hnd hrows hprops hine hlc hlr
      hk hfuel
    obtain ⟨f, rfl⟩ : ∃ f, fuel = f + 1 := ⟨fuel - 1, by omega⟩
    rw [Chain] at hchain
    obtain ⟨e1, e2, hchain2⟩ := hchain
    have hc1n : c1 < n := (hprops c1 (List.mem_cons_self _ _)).1
    obtain ⟨hi'n, hi'back, hi'fr⟩ := hB c1 hc1n e2
    have hjc1 : j ≠ c1 := fun hh => hjcs (hh ▸ List.mem_cons_self _ _)
    have hrowc1 : inRowC.getD (inCol0.getD c1 0) 0 = c1 := by
      rw [hrows c1 (List.mem_cons_self _ _), hi'back]
    -- the chain rows are pairwise distinct via back-pointers
    have hrow_inj : ∀ c, c < n → inCol0.getD c 0 ≠ UNASSIGNED → c ≠ c1 →
        inCol0.getD c 0 ≠ inCol0.getD c1 0 := by
      intro c hcn hcu hne heq
      have h1 := (hB c hcn hcu).2.1
      rw [heq, hi'back] at h1
      exact hne h1.symm
    obtain ⟨inColF, inRowF, hcall, hlcF, hlrF, huc, hur, hP1, hP2, hP4, hP3⟩ :=
      ih c1 f (inCol0.getD c1 0) (k + 1)
        (inColC.set j (inCol0.getD c1 0)) (inRowC.set (inCol0.getD c1 0) j)
        hchain2 hc1n (List.nodup_cons.mp hnd).1 (List.nodup_cons.mp hnd).2
        (by
          intro c hc
          have hcprop := hprops c (List.mem_cons_of_mem _ hc)
          have hne : inCol0.getD c 0 ≠ inCol0.getD c1 0 :=
            hrow_inj c hcprop.1 hcprop.2
              (fun hh => (List.nodup_cons.mp hnd).1 (hh ▸ hc)) 
          rw [getD_set_ne _ _ _ _ _ (fun hh => hne hh.symm)]
          exact hrows c (List.mem_cons_of_mem _ hc))
        (fun c hc => hprops c (List.mem_cons_of_mem _ hc))
        hi'fr (by simpa using hlc) (by simpa using hlr)
        (by simp at hk ⊢; omega) (by simp at hfuel ⊢; omega)
    refine ⟨inColF, inRowF, ?_, hlcF, hlrF, ?_, ?_, ?_, ?_, ?_, ?_⟩
    · rw [ca_walk]
      rw [if_neg hine]
      dsimp only
      rw [e1, hrowc1]
      rw [if_neg (by simp at hk ⊢; omega)]
      exact hcall
    · -- untouched columns
      intro c hcj hccs
      rw [huc c (fun hh => hccs (hh ▸ List.mem_cons_self _ _))
        (fun hh => hccs (List.mem_cons_of_mem _ hh))]
      exact getD_set_ne _ _ _ _ _ (fun hh => hcj hh.symm)
    · -- untouched rows
      intro r hrf hrrows
      rw [hur r hrf (fun c hc => hrrows c (List.mem_cons_of_mem _ hc))]
      exact getD_set_ne _ _ _ _ _
        (fun hh => hrrows c1 (List.mem_cons_self _ _) hh.symm)
    · -- P1
      intro c hc
      rcases List.mem_cons.mp hc with rfl | hc2
      · have hcj : inColF.getD c 0 = inCol0.getD c1 0 := by
          rw [huc c (fun hh => hjc1 hh) (fun hh => hjcs (List.mem_cons_of_mem _ hh)),
            getD_set_self _ _ _ _ (by omega)]
        rw [hcj]
        refine ⟨hi'n, ?_⟩
        rw [hur (inCol0.getD c1 0) hi'fr ?_]
        · rw [getD_set_self _ _ _ _ (by omega)]
        · intro c hc heq
          have hcprop := hprops c (List.mem_cons_of_mem _ hc)
          exact hrow_inj c hcprop.1 hcprop.2
            (fun hh => (List.nodup_cons.mp hnd).1 (hh ▸ hc)) heq.symm
      · exact hP1 c hc2
    · -- P2
      intro c hc
      rcases List.mem_cons.mp hc with rfl | hc2
      · right
        refine ⟨c1, List.mem_cons_self _ _, ?_⟩
        rw [huc c (fun hh => hjc1 hh) (fun hh => hjcs (List.mem_cons_of_mem _ hh)),
          getD_set_self _ _ _ _ (by omega)]
      · rcases hP2 c hc2 with hh | ⟨c2, hc2m, hh⟩
        · exact Or.inl hh
        · exact Or.inr ⟨c2, List.mem_cons_of_mem _ hc2m, hh⟩
    · -- P4: row coverage
      intro r ⟨c2, hc2m, hreq⟩
      rcases List.mem_cons.mp hc2m with rfl | hc2m2
      · refine ⟨j, List.mem_cons_self _ _, ?_⟩
        rw [huc j (fun hh => hjc1 hh) (fun hh => hjcs (List.mem_cons_of_mem _ hh)),
          getD_set_self _ _ _ _ (by omega), hreq]
      · obtain ⟨c, hcm, hce⟩ := hP4 r ⟨c2, hc2m2, hreq⟩
        exact ⟨c, List.mem_cons_of_mem _ hcm, hce⟩
    · -- P3
      obtain ⟨c, hcm, hce⟩ := hP3
      exact ⟨c, List.mem_cons_of_mem _ hcm, hce⟩

end LapJV
namespace LapJV

/-- `ChainOK` is monotone in the position bound. -/
theorem chainOK_mono (inCol0 pred collist : List ℕ) (freerow : ℕ)
    (p p' j : ℕ) (hpp : p ≤ p')
    (h : ChainOK inCol0 pred collist freerow p j) :
    ChainOK inCol0 pred collist freerow p' j := by
  rw [ChainOK] at h ⊢
  rcases h with h | ⟨q, hq, e1, e2, hnest⟩
  · exact Or.inl h
  · exact Or.inr ⟨q, by omega, e1, e2, hnest⟩

/-- Folding `set · startI` over `range' s cnt`: slots in `[s, s + cnt)` that
exist hold `startI`, slots outside are untouched, the length is kept. -/
theorem set_fold_range' (startI : ℕ) :
    ∀ cnt s (pred : List ℕ),
      ((List.range' s cnt).foldl (fun p i => p.set i startI) pred).length =
        pred.length ∧
      (∀ j, j < s ∨ s + cnt ≤ j →
        ((List.range' s cnt).foldl (fun p i => p.set i startI) pred).getD j 0 =
          pred.getD j 0) ∧
      (∀ j, s ≤ j → j < s + cnt → j < pred.length →
        ((List.range' s cnt).foldl (fun p i => p.set i startI) pred).getD j 0 =
          startI) := by
  intro cnt
  induction cnt with
  | zero =>
    intro s pred
    refine ⟨rfl, fun j _ => rfl, fun j h1 h2 _ => by omega⟩
  | succ cnt ih =>
    intro s pred
    have hunf : List.range' s (cnt + 1) = s :: List.range' (s + 1) cnt := by
      simp [List.range']
    rw [hunf]
    simp only [List.foldl_cons]
    obtain ⟨ihl, ihout, ihin⟩ := ih (s + 1) (pred.set s startI)
    refine ⟨by rw [ihl]; simp, ?_, ?_⟩
    · intro j hj
      rw [ihout j (by omega)]
      exact getD_set_ne _ _ _ _ _ (by omega)
    · intro j h1 h2 h3
      by_cases hjs : j = s
      · subst hjs
        rw [ihout j (by omega)]
        exact getD_set_self _ _ _ _ h3
      · exact ihin j (by omega) (by omega) (by simpa using h3)

/-- The `lastUnassigned` fold never loses a hit already in the accumulator. -/
theorem lastUnassigned_fold_ne_none (inCol : List ℕ) :
    ∀ (l : List ℕ) (x : ℕ),
      l.foldl (fun a j => if inCol.getD j 0 = UNASSIGNED then some j else a)
        (some x) ≠ none := by
  intro l
  induction l with
  | nil => intro x h; cases h
  | cons y l ih =>
    intro x h
    simp only [List.foldl_cons] at h
    by_cases hy : inCol.getD y 0 = UNASSIGNED
    · rw [if_pos hy] at h
      exact ih y h
    · rw [if_neg hy] at h
      exact ih x h

/-- If the `lastUnassigned` scan finds a column, that column is in the list
and is unassigned (or the accumulator already held it). -/
theorem lastUnassigned_fold_some (inCol : List ℕ) :
    ∀ (l : List ℕ) (a : Option ℕ) (j : ℕ),
      l.foldl (fun a j => if inCol.getD j 0 = UNASSIGNED then some j else a) a =
        some j →
      (j ∈ l ∧ inCol.getD j 0 = UNASSIGNED) ∨ a = some j := by
  intro l
  induction l with
  | nil => intro a j h; exact Or.inr h
  | cons x l ih =>
    intro a j h
    simp only [List.foldl_cons] at h
    rcases ih _ j h with ⟨h1, h2⟩ | h1
    · exact Or.inl ⟨List.mem_cons_of_mem _ h1, h2⟩
    · by_cases hx : inCol.getD x 0 = UNASSIGNED
      · rw [if_pos hx] at h1
        obtain rfl := Option.some.inj h1
        exact Or.inl ⟨List.mem_cons_self _ _, hx⟩
      · rw [if_neg hx] at h1
        exact Or.inr h1

/-- If the `lastUnassigned` scan finds nothing, every column of the list is
assigned. -/
theorem lastUnassigned_fold_none (inCol : List ℕ) :
    ∀ (l : List ℕ) (a : Option ℕ),
      l.foldl (fun a j => if inCol.getD j 0 = UNASSIGNED then some j else a) a =
        none →
      (∀ x ∈ l, inCol.getD x 0 ≠ UNASSIGNED) := by
  intro l
  induction l with
  | nil => intro a _ x hx; cases hx
  | cons y l ih =>
    intro a h x hx
    simp only [List.foldl_cons] at h
    rcases List.mem_cons.mp hx with rfl | hx
    · intro hu
      rw [if_pos hu] at h
      exact lastUnassigned_fold_ne_none inCol l x h
    · exact ih _ h x hx

/-- The element at a position inside `[lo, hi)` belongs to the corresponding
`drop`/`take` slice. -/
theorem getD_slice_mem (l : List ℕ) (lo hi p : ℕ) (hp1 : lo ≤ p)
    (hp2 : p < hi) (hhi : hi ≤ l.length) :
    l.getD p 0 ∈ (l.drop lo).take (hi - lo) := by
  have hlen : p - lo < ((l.drop lo).take (hi - lo)).length := by
    rw [List.length_take, List.length_drop]
    omega
  have he : ((l.drop lo).take (hi - lo)).getD (p - lo) 0 = l.getD p 0 := by
    rw [List.getD_eq_getElem?_getD, List.getD_eq_getElem?_getD,
      List.getElem?_take, if_pos (by omega : p - lo < hi - lo),
      List.getElem?_drop, (by omega : lo + (p - lo) = p)]
  rw [← he]
  exact getD_mem _ _ hlen

/-- Fold invariant for the `find_dense` group-growing loop: the list stays a
permutation with a stable settled prefix, and the bound stays in
`(lo, n]`. -/
theorem findDense_fold (d : List ℚ) (lo n : ℕ) (collist0 : List ℕ) :
    ∀ cnt s (acc : ℕ × ℚ × List ℕ),
      s + cnt = n → lo < acc.1 → acc.1 ≤ s →
      acc.2.2.length = n → acc.2.2.Perm collist0 →
      (∀ q, q < lo → acc.2.2.getD q 0 = collist0.getD q 0) →
      lo < ((List.range' s cnt).foldl (findDenseStep d lo) acc).1 ∧
      ((List.range' s cnt).foldl (findDenseStep d lo) acc).1 ≤ n ∧
      ((List.range' s cnt).foldl (findDenseStep d lo) acc).2.2.length = n ∧
      ((List.range' s cnt).foldl (findDenseStep d lo) acc).2.2.Perm collist0 ∧
      (∀ q, q < lo →
        ((List.range' s cnt).foldl (findDenseStep d lo) acc).2.2.getD q 0 =
          collist0.getD q 0) := by
  intro cnt
  induction cnt with
  | zero =>
    intro s acc hsn h1 h2 h3 h4 h5
    simp only [List.range', List.foldl_nil] at *
    exact ⟨h1, by omega, h3, h4, h5⟩
  | succ cnt ih =>
    intro s acc hsn h1 h2 h3 h4 h5
    have hunf : List.range' s (cnt + 1) = s :: List.range' (s + 1) cnt := by
      simp [List.range']
    rw [hunf]
    simp only [List.foldl_cons]
    rw [findDenseStep]
    dsimp only
    split
    · -- improving or tying column: swap `(s, hm.1)` and advance `hi`
      set hm : ℕ × ℚ := if d.getD (acc.2.2.getD s 0) 0 < acc.2.1 then
        (lo, d.getD (acc.2.2.getD s 0) 0) else (acc.1, acc.2.1) with hhm
      have hhm1 : lo ≤ hm.1 ∧ hm.1 ≤ s := by
        rw [hhm]
        split
        · exact ⟨le_refl lo, by omega⟩
        · exact ⟨by omega, h2⟩
      have hs_lt : s < acc.2.2.length := by omega
      have hm_lt : hm.1 < acc.2.2.length := by omega
      have hperm := set_set_perm acc.2.2 s hm.1 hs_lt hm_lt
      refine ih (s + 1) _ (by omega) (by dsimp only; omega)
        (by dsimp only; omega) ?_ ?_ ?_
      · dsimp only
        simp [h3]
      · dsimp only
        exact hperm.trans h4
      · intro q hq
        dsimp only
        rw [getD_set_ne _ _ _ _ _ (by omega), getD_set_ne _ _ _ _ _ (by omega)]
        exact h5 q hq
    · exact ih (s + 1) acc (by omega) h1 (by omega) h3 h4 h5

/-- Specification of `find_dense`: the group bound lands in `(lo, dim]` and
the column list is only permuted, with the settled prefix untouched. -/
theorem find_dense_spec (dim lo : ℕ) (d : List ℚ) (collist : List ℕ)
    (hlen : collist.length = dim) (hlo : lo < dim) :
    lo < (find_dense dim lo d collist).1 ∧
    (find_dense dim lo d collist).1 ≤ dim ∧
    (find_dense dim lo d collist).2.length = dim ∧
    (find_dense dim lo d collist).2.Perm collist ∧
    (∀ q, q < lo →
      (find_dense dim lo d collist).2.getD q 0 = collist.getD q 0) := by
  rw [find_dense]
  dsimp only
  have := findDense_fold d lo dim collist (dim - (lo + 1)) (lo + 1)
    (lo + 1, d.getD (collist.getD lo 0) 0, collist)
    (by omega) (by omega) (le_refl _) hlen (List.Perm.refl _)
    (fun q _ => rfl)
  exact this

end LapJV
namespace LapJV

/-- Applying one augmenting path: if `pred` encodes an alternating chain from
an unassigned column `j` back to the free row at the head of the free-row
list, the predecessor walk of `ca_dense` succeeds and the matching invariant
holds afterwards with that free row discharged. -/
theorem ca_step_matchInv (n : ℕ) (hn : n < UNASSIGNED) (freerow : ℕ)
    (rest : List ℕ) (inCol inRow pred : List ℕ)
    (hminv : MatchInv n (freerow :: rest) inCol inRow)
    (j : ℕ) (cs : List ℕ)
    (hchain : Chain inCol pred freerow cs j)
    (hj : j < n) (hju : inCol.getD j 0 = UNASSIGNED)
    (hnd : cs.Nodup)
    (hprops : ∀ c ∈ cs, c < n ∧ inCol.getD c 0 ≠ UNASSIGNED)
    (fuel : ℕ) (hfuel : n + 2 ≤ fuel) :
    ∃ inColF inRowF,
      ca_walk n freerow pred fuel UNASSIGNED j 0 inCol inRow =
        some (Except.ok (inColF, inRowF)) ∧
      MatchInv n rest inColF inRowF := by
  have hfr : freerow < n := hminv.freeLt _ (List.mem_cons_self _ _)
  have hfr_rest : freerow ∉ rest := (List.nodup_cons.mp hminv.nodup).1
  have hB : ∀ c, c < n → inCol.getD c 0 ≠ UNASSIGNED →
      inCol.getD c 0 < n ∧ inRow.getD (inCol.getD c 0) 0 = c ∧
      inCol.getD c 0 ≠ freerow := by
    intro c hc hcu
    obtain ⟨h1, h2, h3⟩ := hminv.colOk c hc hcu
    exact ⟨h1, h2, fun hh => h3 (hh ▸ List.mem_cons_self _ _)⟩
  have hjcs : j ∉ cs := fun hmem => (hprops j hmem).2 hju
  have hcard : cs.length + 1 ≤ n := by
    have hnd2 : (j :: cs).Nodup := List.nodup_cons.mpr ⟨hjcs, hnd⟩
    have hsub : (j :: cs) ⊆ List.range n := by
      intro x hx
      rcases List.mem_cons.mp hx with rfl | hx
      · exact List.mem_range.mpr hj
      · exact List.mem_range.mpr (hprops x hx).1
    have := (List.subperm_of_subset hnd2 hsub).length_le
    simpa using this
  obtain ⟨inColF, inRowF, hres, hlenC, hlenR, huntC, huntR, hP1, hP2, hP4,
      hP3⟩ :=
    ca_walk_chain n hn freerow hfr inCol inRow pred hB cs j fuel UNASSIGNED 0
      inCol inRow hchain hj hjcs hnd (fun c _ => rfl) hprops
      (by intro hh; omega) hminv.colLen hminv.rowLen (by omega) (by omega)
  refine ⟨inColF, inRowF, hres, ?_⟩
  have hrow_ne : ∀ c ∈ cs, inCol.getD c 0 ∉ (freerow :: rest) :=
    fun c hc => (hminv.colOk c (hprops c hc).1 (hprops c hc).2).2.2
  refine ⟨hlenC, hlenR, (List.nodup_cons.mp hminv.nodup).2,
    fun i hi => hminv.freeLt i (List.mem_cons_of_mem _ hi), ?_, ?_⟩
  · -- colOk for the post-walk arrays
    intro c hc hcu
    by_cases hcase : c = j ∨ c ∈ cs
    · have hcmem : c ∈ j :: cs := by
        rcases hcase with rfl | hcase
        · exact List.mem_cons_self _ _
        · exact List.mem_cons_of_mem _ hcase
      obtain ⟨w1, w2⟩ := hP1 c hcmem
      refine ⟨w1, w2, ?_⟩
      rcases hP2 c hcmem with hfr2 | ⟨c2, hc2, he⟩
      · rw [hfr2]
        exact hfr_rest
      · rw [he]
        intro hmem
        exact hrow_ne c2 hc2 (List.mem_cons_of_mem _ hmem)
    · push_neg at hcase
      have hunch : inColF.getD c 0 = inCol.getD c 0 := huntC c hcase.1 hcase.2
      rw [hunch] at hcu ⊢
      obtain ⟨h1, h2, h3⟩ := hminv.colOk c hc hcu
      refine ⟨h1, ?_, fun hmem => h3 (List.mem_cons_of_mem _ hmem)⟩
      have hrne : ∀ c2 ∈ cs, inCol.getD c 0 ≠ inCol.getD c2 0 := by
        intro c2 hc2 he
        have hb2 := (hminv.colOk c2 (hprops c2 hc2).1 (hprops c2 hc2).2).2.1
        rw [← he, h2] at hb2
        exact hcase.2 (hb2 ▸ hc2)
      rw [huntR (inCol.getD c 0) (fun hh => h3 (hh ▸ List.mem_cons_self _ _))
        hrne]
      exact h2
  · -- rowOk for the post-walk arrays
    intro i hi hinotin
    by_cases hi_fr : i = freerow
    · subst hi_fr
      obtain ⟨c, hcmem, hce⟩ := hP3
      obtain ⟨w1, w2⟩ := hP1 c hcmem
      rw [hce] at w2
      rw [w2]
      refine ⟨?_, hce⟩
      rcases List.mem_cons.mp hcmem with rfl | hcmem2
      · exact hj
      · exact (hprops c hcmem2).1
    · by_cases hi_row : ∃ c2 ∈ cs, i = inCol.getD c2 0
      · obtain ⟨c, hcmem, hce⟩ := hP4 i hi_row
        obtain ⟨w1, w2⟩ := hP1 c hcmem
        rw [hce] at w2
        rw [w2]
        refine ⟨?_, hce⟩
        rcases List.mem_cons.mp hcmem with rfl | hcmem2
        · exact hj
        · exact (hprops c hcmem2).1
      · push_neg at hi_row
        have hrr : inRowF.getD i 0 = inRow.getD i 0 := huntR i hi_fr hi_row
        obtain ⟨h1, h2⟩ := hminv.rowOk i hi (by
          intro hmem
          rcases List.mem_cons.mp hmem with hh | hh
          · exact hi_fr hh
          · exact hinotin hh)
        rw [hrr]
        refine ⟨h1, ?_⟩
        have hj0j : inRow.getD i 0 ≠ j := by
          intro hh
          rw [hh, hju] at h2
          omega
        have hj0cs : inRow.getD i 0 ∉ cs := by
          intro hh
          exact hi_row _ hh h2.symm
        rw [huntC _ hj0j hj0cs]
        exact h2

end LapJV
namespace LapJV

/-- Invariant of the relaxation loop of `scan_dense` (`scanInner`), scanning
the unsettled positions `[s, n)`: the column list is permuted with a stable
prefix below the group bound, `pred` changes only on unsettled columns, the
shortest-path-tree property survives at bound `lo + 1`, every grouped column
stays assigned, and a found column is unassigned. -/
theorem scanInner_spec (m : Matrix) (v : List ℚ) (inCol : List ℕ)
    (n freerow lo : ℕ) (i : ℕ) (mind h : ℚ) (hiu : i ≠ UNASSIGNED) :
    ∀ cnt s hi (d : List ℚ) (collist pred : List ℕ)
      (r : (Option ℕ) × ℕ × List ℚ × List ℕ × List ℕ),
      scanInner m v inCol i mind h (List.range' s cnt) hi d collist pred = r →
      s + cnt = n → hi ≤ s → lo < hi →
      collist.length = n → collist.Nodup → (∀ c ∈ collist, c < n) →
      pred.length = n →
      i = inCol.getD (collist.getD lo 0) 0 →
      ChainOK inCol pred collist freerow lo (collist.getD lo 0) →
      (∀ j2, j2 < n → ChainOK inCol pred collist freerow (lo + 1) j2) →
      (∀ p, lo ≤ p → p < hi → inCol.getD (collist.getD p 0) 0 ≠ UNASSIGNED) →
      r.2.2.2.1.length = n ∧
      r.2.2.2.1.Perm collist ∧
      (∀ q, q < hi → r.2.2.2.1.getD q 0 = collist.getD q 0) ∧
      r.2.2.2.2.length = n ∧
      (∀ q, q < hi → r.2.2.2.2.getD (collist.getD q 0) 0 =
        pred.getD (collist.getD q 0) 0) ∧
      hi ≤ r.2.1 ∧ r.2.1 ≤ n ∧
      (∀ j2, j2 < n →
        ChainOK inCol r.2.2.2.2 r.2.2.2.1 freerow (lo + 1) j2) ∧
      (∀ p, lo ≤ p → p < r.2.1 →
        inCol.getD (r.2.2.2.1.getD p 0) 0 ≠ UNASSIGNED) ∧
      (∀ j2, r.1 = some j2 → j2 < n ∧ inCol.getD j2 0 = UNASSIGNED) := by
  intro cnt
  induction cnt with
  | zero =>
    intro s hi d collist pred r hr hsn hhs hlh hclen hnd hmem hplen hieq hDlo
      hD hE
    simp only [List.range'] at hr
    rw [scanInner] at hr
    subst hr
    dsimp only
    refine ⟨hclen, List.Perm.refl _, fun q _ => rfl, hplen, fun q _ => rfl,
      le_refl _, by omega, hD, hE, ?_⟩
    intro j2 hj2
    exact absurd hj2 (by simp)
  | succ cnt ih =>
    intro s hi d collist pred r hr hsn hhs hlh hclen hnd hmem hplen hieq hDlo
      hD hE
    have hunf : List.range' s (cnt + 1) = s :: List.range' (s + 1) cnt := by
      simp [List.range']
    rw [hunf] at hr
    rw [scanInner] at hr
    dsimp only at hr
    have hs_lt : s < n := by omega
    have hj_lt : collist.getD s 0 < n :=
      hmem _ (getD_mem _ _ (by omega))
    have hj_ne_pre : ∀ q, q < hi → collist.getD s 0 ≠ collist.getD q 0 :=
      fun q hq => nodup_getD_ne collist hnd (by omega) (by omega) (by omega)
    split at hr
    · -- the reduced cost improves the tentative distance
      rename_i hcred
      -- predecessor update facts
      have hplen1 : (pred.set (collist.getD s 0) i).length = n := by
        simpa using hplen
      have hpred_self :
          (pred.set (collist.getD s 0) i).getD (collist.getD s 0) 0 = i :=
        getD_set_self _ _ _ _ (by omega)
      have hpred_ne : ∀ x, x ≠ collist.getD s 0 →
          (pred.set (collist.getD s 0) i).getD x 0 = pred.getD x 0 :=
        fun x hx => getD_set_ne _ _ _ _ _ (fun hh => hx hh.symm)
      have hDlo1 : ChainOK inCol (pred.set (collist.getD s 0) i) collist
          freerow lo (collist.getD lo 0) := by
        refine chainOK_stable inCol freerow lo pred _ collist collist _ hDlo
          (fun q _ => rfl) ?_ ?_
        · intro q hq
          exact hpred_ne _ (hj_ne_pre q (by omega)).symm
        · exact hpred_ne _ (hj_ne_pre lo hlh).symm
      have hD1 : ∀ j2, j2 < n → ChainOK inCol
          (pred.set (collist.getD s 0) i) collist freerow (lo + 1) j2 := by
        intro j2 hj2
        by_cases hj2j : j2 = collist.getD s 0
        · subst hj2j
          rw [ChainOK]
          right
          refine ⟨lo, by omega, ?_, ?_, hDlo1⟩
          · rw [hpred_self, hieq]
          · rw [← hieq]
            exact hiu
        · refine chainOK_stable inCol freerow (lo + 1) pred _ collist collist
            _ (hD j2 hj2) (fun q _ => rfl) ?_ (hpred_ne _ hj2j)
          intro q hq
          exact hpred_ne _ (hj_ne_pre q (by omega)).symm
      split at hr
      · -- within epsilon of the group minimum
        split at hr
        · -- unassigned column found: the scan aborts
          rename_i hfound
          subst hr
          dsimp only
          refine ⟨hclen, List.Perm.refl _, fun q _ => rfl, hplen1, ?_,
            le_refl _, by omega, hD1, hE, ?_⟩
          · intro q hq
            exact hpred_ne _ (hj_ne_pre q hq).symm
          · intro j2 hj2
            obtain rfl := Option.some.inj hj2
            exact ⟨hj_lt, hfound⟩
        · -- assigned: move the column into the group and continue
          rename_i hass
          have hhi_lt : hi < n := by omega
          have hperm1 : ((collist.set s (collist.getD hi 0)).set hi
              (collist.getD s 0)).Perm collist :=
            set_set_perm collist s hi (by omega) (by omega)
          have hclen1 : ((collist.set s (collist.getD hi 0)).set hi
              (collist.getD s 0)).length = n := by
            simpa using hclen
          have hpre1 : ∀ q, q < hi →
              ((collist.set s (collist.getD hi 0)).set hi
                (collist.getD s 0)).getD q 0 = collist.getD q 0 := by
            intro q hq
            rw [getD_set_ne _ _ _ _ _ (by omega),
              getD_set_ne _ _ _ _ _ (by omega)]
          have hat_hi : ((collist.set s (collist.getD hi 0)).set hi
              (collist.getD s 0)).getD hi 0 = collist.getD s 0 := by
            refine getD_set_self _ _ _ _ ?_
            rw [List.length_set]
            omega
          -- the settled-position chain survives the swap
          have hDlo2 : ChainOK inCol (pred.set (collist.getD s 0) i)
              ((collist.set s (collist.getD hi 0)).set hi (collist.getD s 0))
              freerow lo
              (((collist.set s (collist.getD hi 0)).set hi
                (collist.getD s 0)).getD lo 0) := by
            rw [hpre1 lo hlh]
            refine chainOK_stable inCol freerow lo _ _ collist _ _ hDlo1
              (fun q hq => hpre1 q (by omega)) (fun q _ => rfl) rfl
          -- the tree property survives the swap
          have hD2 : ∀ j2, j2 < n → ChainOK inCol
              (pred.set (collist.getD s 0) i)
              ((collist.set s (collist.getD hi 0)).set hi (collist.getD s 0))
              freerow (lo + 1) j2 := by
            intro j2 hj2
            refine chainOK_stable inCol freerow (lo + 1) _ _ collist _ _
              (hD1 j2 hj2) (fun q hq => hpre1 q (by omega))
              (fun q _ => rfl) rfl
          -- the enlarged group stays assigned
          have hE2 : ∀ p, lo ≤ p → p < hi + 1 →
              inCol.getD (((collist.set s (collist.getD hi 0)).set hi
                (collist.getD s 0)).getD p 0) 0 ≠ UNASSIGNED := by
            intro p hp1 hp2
            by_cases hph : p = hi
            · subst hph
              rw [hat_hi]
              exact hass
            · rw [hpre1 p (by omega)]
              exact hE p hp1 (by omega)
          have hobtain := ih (s + 1) (hi + 1) _ _ _ r hr (by omega) (by omega)
            (by omega) hclen1 (hperm1.nodup_iff.mpr hnd)
            (fun c hc => hmem c (hperm1.subset hc)) hplen1
            (by rw [hpre1 lo hlh]; exact hieq)
            hDlo2 hD2 hE2
          obtain ⟨L1, L2, L3, L4, L5, L6, L7, L8, L9, L10⟩ := hobtain
          refine ⟨L1, L2.trans hperm1, ?_, L4, ?_, by omega, L7, L8, ?_, L10⟩
          · intro q hq
            rw [L3 q (by omega), hpre1 q hq]
          · intro q hq
            have L5q := L5 q (by omega)
            rw [hpre1 q hq] at L5q
            rw [L5q]
            exact hpred_ne _ (hj_ne_pre q hq).symm
          · intro p hp1 hp2
            exact L9 p hp1 (by omega)
      · -- improved but not within epsilon: distance/pred recorded, no grouping
        have hobtain := ih (s + 1) hi _ _ _ r hr (by omega) (by omega) hlh
          hclen hnd hmem hplen1 hieq hDlo1 hD1 hE
        obtain ⟨L1, L2, L3, L4, L5, L6, L7, L8, L9, L10⟩ := hobtain
        refine ⟨L1, L2, L3, L4, ?_, L6, L7, L8, L9, L10⟩
        intro q hq
        rw [L5 q hq]
        exact hpred_ne _ (hj_ne_pre q hq).symm
    · -- no improvement: state unchanged, continue
      exact ih (s + 1) hi _ _ _ r hr (by omega) (by omega) hlh hclen hnd hmem
        hplen hieq hDlo hD hE

end LapJV
namespace LapJV

/-- Invariant of the outer `while lo != hi` loop of `scan_dense`: the column
list stays a permutation of `[0, n)`, the shortest-path-tree property holds
at the final settled bound, and a found column is unassigned with a recorded
chain. -/
theorem scanLoop_spec (m : Matrix) (v : List ℚ) (inCol : List ℕ)
    (n freerow : ℕ) :
    ∀ fuel lo hi (d : List ℚ) (collist pred : List ℕ)
      (R : (Option ℕ) × ℕ × ℕ × List ℚ × List ℕ × List ℕ),
      scanLoop m v inCol fuel lo hi d collist pred = R →
      n + 1 - lo ≤ fuel →
      lo ≤ hi → hi ≤ n →
      collist.length = n → collist.Nodup → (∀ c ∈ collist, c < n) →
      pred.length = n →
      (∀ j2, j2 < n → ChainOK inCol pred collist freerow lo j2) →
      (∀ p, lo ≤ p → p < hi → inCol.getD (collist.getD p 0) 0 ≠ UNASSIGNED) →
      R.2.2.2.2.1.length = n ∧ R.2.2.2.2.1.Nodup ∧
      (∀ c ∈ R.2.2.2.2.1, c < n) ∧ R.2.2.2.2.2.length = n ∧
      (R.1 = none → R.2.1 = R.2.2.1 ∧ hi ≤ R.2.2.1 ∧ R.2.2.1 ≤ n ∧
        (∀ j2, j2 < n →
          ChainOK inCol R.2.2.2.2.2 R.2.2.2.2.1 freerow R.2.1 j2)) ∧
      (∀ j2, R.1 = some j2 → j2 < n ∧ inCol.getD j2 0 = UNASSIGNED ∧
        ∃ p, p ≤ n ∧ ChainOK inCol R.2.2.2.2.2 R.2.2.2.2.1 freerow p j2) := by
  intro fuel
  induction fuel with
  | zero =>
    intro lo hi d collist pred R hR hfuel hlo hhi hclen hnd hmem hplen hD hE
    exfalso
    omega
  | succ fuel ih =>
    intro lo hi d collist pred R hR hfuel hlo hhi hclen hnd hmem hplen hD hE
    rw [scanLoop] at hR
    dsimp only at hR
    split at hR
    · -- the settled bound reached the group bound: nothing found
      rename_i hloeq
      subst hR
      dsimp only
      refine ⟨hclen, hnd, hmem, hplen, ?_, ?_⟩
      · intro _
        exact ⟨hloeq, le_refl hi, by omega, hD⟩
      · intro j2 hj2
        exact absurd hj2 (by simp)
    · -- consume the settled position `lo` and relax through its row
      rename_i hlone
      have hlolt : lo < hi := by omega
      have hconsume : inCol.getD (collist.getD lo 0) 0 ≠ UNASSIGNED :=
        hE lo (le_refl _) hlolt
      obtain ⟨S1, S2, S3, S4, S5, S6, S7, S8, S9, S10⟩ :=
        scanInner_spec m v inCol n freerow lo
          (inCol.getD (collist.getD lo 0) 0)
          (d.getD (collist.getD lo 0) 0)
          (reduced_cost m v (inCol.getD (collist.getD lo 0) 0)
            (collist.getD lo 0) - d.getD (collist.getD lo 0) 0)
          hconsume (collist.length - hi) hi hi d collist pred _ rfl
          (by omega) (le_refl _) hlolt hclen hnd hmem hplen rfl
          (hD _ (hmem _ (getD_mem _ _ (by omega))))
          (fun j2 hj2 => chainOK_mono inCol pred collist freerow lo (lo + 1)
            j2 (by omega) (hD j2 hj2))
          hE
      split at hR
      · -- an unassigned column was found mid-relaxation
        rename_i found hfound
        subst hR
        dsimp only
        refine ⟨S1, S2.nodup_iff.mpr hnd, fun c hc => hmem c (S2.subset hc),
          S4, ?_, ?_⟩
        · intro hnone
          exact absurd hnone (by simp)
        · intro j2 hj2
          have he := Option.some.inj hj2
          subst he
          obtain ⟨w1, w2⟩ := S10 _ hfound
          exact ⟨w1, w2, lo + 1, by omega, S8 _ w1⟩
      · -- nothing found: advance the settled bound and loop
        rename_i hnone
        have hres := ih (lo + 1) _ _ _ _ R hR (by omega) (by omega) S7 S1
          (S2.nodup_iff.mpr hnd) (fun c hc => hmem c (S2.subset hc)) S4 S8
          (fun p hp1 hp2 => S9 p (by omega) hp2)
        obtain ⟨T1, T2, T3, T4, T5, T6⟩ := hres
        refine ⟨T1, T2, T3, T4, ?_, T6⟩
        intro hRnone
        obtain ⟨U1, U2, U3, U4⟩ := T5 hRnone
        exact ⟨U1, by omega, U3, U4⟩

end LapJV
namespace LapJV

/-- Invariant of the `while final_j.is_none()` loop of `find_path_dense`: a
found terminal column is in range, unassigned, and reachable from the root
free row through the recorded predecessor chain. -/
theorem pathLoop_spec (m : Matrix) (v : List ℚ) (inCol : List ℕ)
    (n freerow : ℕ) :
    ∀ fuel lo hi nReady (d : List ℚ) (collist pred : List ℕ)
      (j lo2 nR2 : ℕ) (d2 : List ℚ) (collist2 pred2 : List ℕ),
      pathLoop m v inCol n fuel lo hi nReady d collist pred =
        some (j, lo2, nR2, d2, collist2, pred2) →
      n + 1 - lo ≤ fuel →
      lo ≤ hi → hi ≤ n →
      collist.length = n → collist.Nodup → (∀ c ∈ collist, c < n) →
      pred.length = n →
      (∀ j2, j2 < n → ChainOK inCol pred collist freerow lo j2) →
      (∀ p, lo ≤ p → p < hi → inCol.getD (collist.getD p 0) 0 ≠ UNASSIGNED) →
      j < n ∧ inCol.getD j 0 = UNASSIGNED ∧ pred2.length = n ∧
      collist2.length = n ∧ collist2.Nodup ∧ (∀ c ∈ collist2, c < n) ∧
      ∃ p, p ≤ n ∧ ChainOK inCol pred2 collist2 freerow p j := by
  intro fuel
  induction fuel with
  | zero =>
    intro lo hi nReady d collist pred j lo2 nR2 d2 collist2 pred2 hres
    intro hfuel hlo hhi hclen hnd hmem hplen hD hE
    rw [pathLoop] at hres
    exact absurd hres (by simp)
  | succ fuel ih =>
    intro lo hi nReady d collist pred j lo2 nR2 d2 collist2 pred2 hres
    intro hfuel hlo hhi hclen hnd hmem hplen hD hE
    rw [pathLoop] at hres
    dsimp only at hres
    -- common handling of the scan step used by both branches
    have hstep : ∀ (hi' nR' : ℕ) (d' : List ℚ) (collist' : List ℕ),
        lo < hi' → hi' ≤ n → collist'.length = n → collist'.Nodup →
        (∀ c ∈ collist', c < n) →
        (∀ j2, j2 < n → ChainOK inCol pred collist' freerow lo j2) →
        (∀ p, lo ≤ p → p < hi' →
          inCol.getD (collist'.getD p 0) 0 ≠ UNASSIGNED) →
        (match (scan_dense m v inCol lo hi' d' collist' pred).1 with
          | some jf => some (jf, lo, nR',
              (scan_dense m v inCol lo hi' d' collist' pred).2.2.2.1,
              (scan_dense m v inCol lo hi' d' collist' pred).2.2.2.2.1,
              (scan_dense m v inCol lo hi' d' collist' pred).2.2.2.2.2)
          | none => pathLoop m v inCol n fuel
              (scan_dense m v inCol lo hi' d' collist' pred).2.1
              (scan_dense m v inCol lo hi' d' collist' pred).2.2.1 nR'
              (scan_dense m v inCol lo hi' d' collist' pred).2.2.2.1
              (scan_dense m v inCol lo hi' d' collist' pred).2.2.2.2.1
              (scan_dense m v inCol lo hi' d' collist' pred).2.2.2.2.2) =
          some (j, lo2, nR2, d2, collist2, pred2) →
        j < n ∧ inCol.getD j 0 = UNASSIGNED ∧ pred2.length = n ∧
        collist2.length = n ∧ collist2.Nodup ∧ (∀ c ∈ collist2, c < n) ∧
        ∃ p, p ≤ n ∧ ChainOK inCol pred2 collist2 freerow p j := by
      intro hi' nR' d' collist' hlt' hhi' hclen' hnd' hmem' hD' hE' hmatch
      rw [scan_dense] at hmatch
      obtain ⟨T1, T2, T3, T4, T5, T6⟩ :=
        scanLoop_spec m v inCol n freerow (collist'.length + 1) lo hi' d'
          collist' pred _ rfl (by omega) (by omega) hhi' hclen' hnd' hmem'
          hplen hD' hE'
      split at hmatch
      · -- the scan found an unassigned column
        rename_i jf hjf
        simp only [Option.some.injEq, Prod.mk.injEq] at hmatch
        obtain ⟨rfl, _, _, _, rfl, rfl⟩ := hmatch
        obtain ⟨w1, w2, p, hp, hchain⟩ := T6 _ hjf
        exact ⟨w1, w2, T4, T1, T2, T3, p, hp, hchain⟩
      · -- nothing found: the settled bound advanced, loop again
        rename_i hjn
        obtain ⟨U1, U2, U3, U4⟩ := T5 hjn
        refine ih _ _ nR' _ _ _ j lo2 nR2 d2 collist2 pred2 hmatch
          (by omega) (by omega) U3 T1 T2 T3 T4 (U1 ▸ U4) ?_
        intro p hp1 hp2
        exfalso
        omega
    split at hres
    · -- `lo = hi`: settle the next group of minimum-distance columns
      rename_i hloeq
      split at hres
      · exact absurd hres (by simp)
      · rename_i hlon
        have hlolt : lo < n := by omega
        obtain ⟨F1, F2, F3, F4, F5⟩ := find_dense_spec n lo d collist hclen
          hlolt
        have hDfd : ∀ j2, j2 < n → ChainOK inCol pred
            (find_dense n lo d collist).2 freerow lo j2 := by
          intro j2 hj2
          exact chainOK_stable inCol freerow lo pred pred collist _ j2
            (hD j2 hj2) (fun q hq => F5 q hq) (fun q _ => rfl) rfl
        split at hres
        · -- an unassigned column inside the settled group
          rename_i jf hjf
          simp only [Option.some.injEq, Prod.mk.injEq] at hres
          obtain ⟨rfl, _, _, _, rfl, rfl⟩ := hres
          rw [lastUnassigned] at hjf
          rcases lastUnassigned_fold_some inCol _ _ _ hjf with ⟨hmem2, hun⟩ |
            hbad
          · have hjcl : jf ∈ (find_dense n lo d collist).2 :=
              List.drop_subset _ _ (List.take_subset _ _ hmem2)
            refine ⟨hmem _ (F4.subset hjcl), hun, hplen, F3,
              F4.nodup_iff.mpr hnd, fun c hc => hmem c (F4.subset hc),
              lo, by omega, hDfd jf (hmem _ (F4.subset hjcl))⟩
          · exact absurd hbad (by simp)
        · -- every grouped column assigned: relax through the group
          rename_i hjn
          rw [lastUnassigned] at hjn
          have hEfd : ∀ p, lo ≤ p → p < (find_dense n lo d collist).1 →
              inCol.getD ((find_dense n lo d collist).2.getD p 0) 0 ≠
                UNASSIGNED := by
            intro p hp1 hp2
            exact lastUnassigned_fold_none inCol _ _ hjn _
              (getD_slice_mem _ lo _ p hp1 hp2 (by omega))
          exact hstep (find_dense n lo d collist).1 lo d
            (find_dense n lo d collist).2 F1 F2 F3
            (F4.nodup_iff.mpr hnd) (fun c hc => hmem c (F4.subset hc))
            hDfd hEfd hres
    · -- `lo ≠ hi`: grouped columns remain, relax directly
      rename_i hlone
      exact hstep hi nReady d collist (by omega) hhi hclen hnd hmem hD hE hres

end LapJV
namespace LapJV

/-- Specification of `find_path_dense`: a returned terminal column is in
range and unassigned, the returned `pred` keeps its length, and `pred`
records an alternating chain of assigned columns from the terminal column
back to the root free row. -/
theorem find_path_spec (m : Matrix) (v : List ℚ) (inCol : List ℕ)
    (freerow n : ℕ) (pred0 : List ℕ) (hplen : pred0.length = n)
    (j : ℕ) (v2 : List ℚ) (pred2 : List ℕ)
    (hres : find_path_dense m v inCol freerow n pred0 =
      some (j, v2, pred2)) :
    j < n ∧ inCol.getD j 0 = UNASSIGNED ∧ pred2.length = n ∧
    ∃ cs, Chain inCol pred2 freerow cs j ∧ cs.Nodup ∧
      (∀ c ∈ cs, c < n ∧ inCol.getD c 0 ≠ UNASSIGNED) := by
  rw [find_path_dense] at hres
  dsimp only at hres
  -- the predecessor initialisation fold
  obtain ⟨I1, _, I3⟩ := set_fold_range' freerow n 0 pred0
  rw [← List.range_eq_range'] at I1 I3
  rcases hloop : pathLoop m v inCol n (n + 1) 0 0 0
      ((List.range n).map (reduced_cost m v freerow)) (List.range n)
      ((List.range n).foldl (fun p i => p.set i freerow) pred0) with _ |
    ⟨finalJ, lo, nReady, dF, collistF, predF⟩ <;> rw [hloop] at hres
  · exact absurd hres (by simp)
  · dsimp only at hres
    simp only [Option.some.injEq, Prod.mk.injEq] at hres
    obtain ⟨rfl, _, rfl⟩ := hres
    have hspec := pathLoop_spec m v inCol n freerow (n + 1) 0 0 0
      ((List.range n).map (reduced_cost m v freerow))
      (List.range n)
      ((List.range n).foldl (fun p i => p.set i freerow) pred0)
      finalJ lo nReady dF collistF predF hloop
      (by omega) (le_refl 0) (by omega)
      (List.length_range n) (List.nodup_range n) (fun c hc => List.mem_range.mp hc)
      (by rw [I1, hplen])
      ?_ ?_
    · obtain ⟨w1, w2, w3, w4, w5, w6, p, hp, hchain⟩ := hspec
      refine ⟨w1, w2, w3, ?_⟩
      obtain ⟨cs, hcs1, hcs2, hcs3, hcs4, hcs5⟩ :=
        chainOK_extract n inCol predF collistF freerow w5 w4 w6 p finalJ hp
          hchain
      exact ⟨cs, hcs1, hcs4, fun c hc => ⟨(hcs5 c hc).2, (hcs5 c hc).1⟩⟩
    · -- every slot of the initialised `pred` names the root free row
      intro j2 hj2
      rw [ChainOK]
      left
      exact I3 j2 (by omega) (by omega) (by omega)
    · intro p hp1 hp2
      exfalso
      omega

/-- The `for freerow in free_rows` loop of `ca_dense` preserves the matching
invariant and discharges every free row. -/
theorem caLoop_matchInv (m : Matrix) (flag : Bool) (n : ℕ)
    (hn : n < UNASSIGNED) :
    ∀ (fr pred : List ℕ) (v : List ℚ) (inCol inRow : List ℕ)
      (r : List ℚ × List ℕ × List ℕ),
      pred.length = n →
      MatchInv n fr inCol inRow →
      caLoop m flag n fr pred v inCol inRow = some (.ok r) →
      MatchInv n [] r.2.1 r.2.2 := by
  intro fr
  induction fr with
  | nil =>
    intro pred v inCol inRow r hplen hminv hres
    rw [caLoop] at hres
    simp only [Option.some.injEq, Except.ok.injEq] at hres
    subst hres
    exact hminv
  | cons freerow rest ih =>
    intro pred v inCol inRow r hplen hminv hres
    rw [caLoop] at hres
    split at hres
    · exact absurd hres (by simp)
    · split at hres
      · exact absurd hres (by simp)
      · rename_i j v2 pred2 hfp
        obtain ⟨w1, w2, w3, cs, hchain, hcnd, hcprops⟩ :=
          find_path_spec m v inCol freerow n pred hplen j v2 pred2 hfp
        obtain ⟨inColF, inRowF, hwalk, hminv2⟩ :=
          ca_step_matchInv n hn freerow rest inCol inRow pred2 hminv j cs
            hchain w1 w2 hcnd hcprops (n + 2) (le_refl _)
        rw [hwalk] at hres
        dsimp only at hres
        exact ih pred2 v2 inColF inRowF r w3 hminv2 hres

/-- `ca_dense` preserves the matching invariant, emptying the free-row
list. -/
theorem ca_dense_matchInv (m : Matrix) (flag : Bool) (n : ℕ)
    (hn : n < UNASSIGNED) (st st' : St) (hdim : st.dim = n)
    (hminv : MatchInv n st.freeRows st.inCol st.inRow)
    (h : ca_dense m flag st = some (.ok st')) :
    st'.dim = n ∧ st'.freeRows = [] ∧ MatchInv n [] st'.inCol st'.inRow := by
  rw [ca_dense] at h
  split at h
  · exact absurd h (by simp)
  · exact absurd h (by simp)
  · rename_i v2 inCol2 inRow2 hloop
    simp only [Option.some.injEq, Except.ok.injEq] at h
    subst h
    dsimp only
    refine ⟨hdim, rfl, ?_⟩
    rw [hdim] at hloop
    have := caLoop_matchInv m flag n hn st.freeRows (List.replicate n 0)
      st.v st.inCol st.inRow (v2, inCol2, inRow2)
      (List.length_replicate n 0) hminv hloop
    exact this

/-- The two-pass `solve` loop preserves the matching invariant. -/
theorem solveLoop_matchInv (m : Matrix) (flag : Bool) (n : ℕ)
    (hn : n < UNASSIGNED) (hsq : m.ncols = n) :
    ∀ (rem : ℕ) (st st' : St), st.dim = n →
      MatchInv n st.freeRows st.inCol st.inRow →
      solveLoop m flag rem st = some (.ok st') →
      st'.dim = n ∧ MatchInv n st'.freeRows st'.inCol st'.inRow := by
  intro rem
  induction rem with
  | zero =>
    intro st st' hdim hminv hres
    rw [solveLoop] at hres
    simp only [Option.some.injEq, Except.ok.injEq] at hres
    subst hres
    exact ⟨hdim, hminv⟩
  | succ rem ih =>
    intro st st' hdim hminv hres
    rw [solveLoop] at hres
    split at hres
    · split at hres
      · exact absurd hres (by simp)
      · split at hres
        · exact absurd hres (by simp)
        · rename_i st1 hcarr
          obtain ⟨hdim1, hminv1⟩ :=
            carr_dense_matchInv m n hn hsq st st1 hdim hminv hcarr
          exact ih st1 st' hdim1 hminv1 hres
    · simp only [Option.some.injEq, Except.ok.injEq] at hres
      subst hres
      exact ⟨hdim, hminv⟩

end LapJV
namespace LapJV

/-- **C1**: for every square cost matrix of size `N ≥ 1` (any size a real
`usize`-indexed array can have, i.e. below the `UNASSIGNED` sentinel), if
`solve()` succeeds then the two returned arrays `row_to_col` and
`col_to_row` are each permutations of `[0, N)` and are mutual inverses:
`row_to_col[i] = j` if and only if `col_to_row[j] = i`. -/
theorem claim_C1_success_permutations (m : Matrix) (flag : Bool)
    (rowToCol colToRow : List ℕ)
    (hn1 : 1 ≤ m.nrows) (hun : m.nrows < UNASSIGNED)
    (hres : solve m flag = some (.ok (rowToCol, colToRow))) :
    rowToCol.length = m.nrows ∧ colToRow.length = m.nrows ∧
    rowToCol.Perm (List.range m.nrows) ∧
    colToRow.Perm (List.range m.nrows) ∧
    (∀ i j, i < m.nrows → j < m.nrows →
      (rowToCol.getD i 0 = j ↔ colToRow.getD j 0 = i)) := by
  rw [solve] at hres
  split at hres
  · exact absurd hres (by simp)
  · rename_i hsqn
    have hsq : m.nrows = m.ncols := not_ne_iff.mp hsqn
    obtain ⟨hdim0, hminv0⟩ := ccrrt_matchInv m hsq hun (initState m) rfl
      (by simp [initState]) rfl rfl rfl
    split at hres
    · exact absurd hres (by simp)
    · exact absurd hres (by simp)
    · rename_i st2 hsl
      obtain ⟨hdim2, hminv2⟩ := solveLoop_matchInv m flag m.nrows hun
        hsq.symm 2 _ st2 hdim0 hminv0 hsl
      split at hres
      · -- free rows remain: the augmentation phase runs
        split at hres
        · exact absurd hres (by simp)
        · exact absurd hres (by simp)
        · rename_i st3 hca
          obtain ⟨_, _, hminv3⟩ := ca_dense_matchInv m flag m.nrows hun st2
            st3 hdim2 hminv2 hca
          simp only [Option.some.injEq, Except.ok.injEq, Prod.mk.injEq]
            at hres
          obtain ⟨rfl, rfl⟩ := hres
          obtain ⟨e1, e2, _, _, hiff, hp1, hp2⟩ :=
            matchInv_empty_perm m.nrows st3.inCol st3.inRow hminv3
          exact ⟨e1, e2, hp1, hp2, hiff⟩
      · -- no free rows: the two reduction phases already built the matching
        rename_i hfr
        have hfre : st2.freeRows = [] := not_ne_iff.mp hfr
        simp only [Option.some.injEq, Except.ok.injEq, Prod.mk.injEq] at hres
        obtain ⟨rfl, rfl⟩ := hres
        rw [hfre] at hminv2
        obtain ⟨e1, e2, _, _, hiff, hp1, hp2⟩ :=
          matchInv_empty_perm m.nrows st2.inCol st2.inRow hminv2
        exact ⟨e1, e2, hp1, hp2, hiff⟩

end LapJV

namespace LapJV

unseal Rat.add Rat.sub Rat.mul Rat.inv in
set_option maxRecDepth 40000 in
/-- Witness for C1: on the concrete square matrix `[[1,2],[2,1]]` the
hypotheses hold (`N = 2 ≥ 1`, `N` below the sentinel, and `solve` succeeds
with `([0,1], [0,1])`), and the theorem yields that `row_to_col = [0,1]` is
a permutation of `[0, 2)`. -/
theorem claim_C1_success_permutations_witness :
    1 ≤ (Matrix.ofRows [[1, 2], [2, 1]]).nrows ∧
    (Matrix.ofRows [[1, 2], [2, 1]]).nrows < UNASSIGNED ∧
    solve (Matrix.ofRows [[1, 2], [2, 1]]) false =
      some (.ok ([0, 1], [0, 1])) ∧
    ([0, 1] : List ℕ).Perm
      (List.range (Matrix.ofRows [[1, 2], [2, 1]]).nrows) :=
  ⟨by decide, by decide, by decide,
    (claim_C1_success_permutations (Matrix.ofRows [[1, 2], [2, 1]]) false
      [0, 1] [0, 1] (by decide) (by decide) (by decide)).2.2.1⟩

end LapJV
